import Mathlib

/-!
# TonyWeb pitch-analysis core: a shallow embedding with verified properties

This file embeds the algorithmic core of the TonyWeb repository in Lean 4 and
proves properties of it:

* the pYIN worker of `src/services/spectrogram.ts` (`runPyin`,
  `computeYinBuffer`, `parabolicInterpolation`), including candidate
  extraction, Viterbi decoding and the despeckling post-pass;
* the spectrogram worker (`computeSpectrogram`, `simpleFFT`);
* the note algebra of `src/utils/audioUtils.ts` (`calculateMedianPitch`,
  `splitNote`, `resizeNoteWithPush`, `snapTime`);
* the snapping helper of `src/utils/interactionUtils.ts` (`getSnappedTime`);
* the history store of `src/hooks/useUndoRedo.ts`.

Conventions of the embedding:

* JavaScript `number` values are modelled as exact rationals (`ℚ`); numeric
  literals of the source (`0.01`, `1e-15`, ...) are read as exact rationals.
* The transcendental library functions the source calls (`Math.sqrt`,
  `Math.log2`, `Math.cos`, `Math.sin`) are passed in as function parameters
  (`sqrtF`, `log2F`, `cos2piF`, `sin2piF`); every theorem below holds for an
  arbitrary choice of these functions.
* JavaScript array reads are modelled with `List.getD _ _ 0` (or an explicit
  default); every read performed by the source on its actual call paths is
  in bounds, so the default is never observable there.
* `Array.prototype.sort` with a numeric comparator (stable, ascending) is
  modelled by the stable insertion sort `stableSort`.
* Integer `for` loops become maps/folds over `List.range`; stateful loops
  carry their state through a fold or structural recursion.
-/

/-! ## Shared data model (src/types.ts) -/

/-- A pYIN pitch candidate, as in the worker of `src/services/spectrogram.ts`:
`{ frequency, probability, yinDip }`. -/
structure Candidate where
  frequency : ℚ
  probability : ℚ
  yinDip : ℚ
deriving DecidableEq, Repr

/-- A UI-facing candidate `{ frequency, probability }` (src/types.ts
`PitchCandidate`). -/
structure UICandidate where
  frequency : ℚ
  probability : ℚ
deriving DecidableEq, Repr

/-- One frame of the decoded pitch track (src/types.ts `PitchFrame`). -/
structure PitchFrame where
  timestamp : ℚ
  frequency : ℚ
  probability : ℚ
  hasPitch : Bool
  candidates : List UICandidate
deriving DecidableEq, Repr

/-- A note segment (src/types.ts `Note`); the optional `state` field is not
used by any of the algorithms embedded here and is omitted. -/
structure Note where
  id : String
  start : ℚ
  «end» : ℚ
  pitch : ℚ
deriving DecidableEq, Repr

/-- Spectrogram result (src/types.ts `SpectrogramData`).  `width` is an
integer because the worker stores `numFrames = Math.floor((len - 2048)/512)`
there, which is negative for inputs shorter than one window. -/
structure SpectrogramData where
  width : ℤ
  height : ℕ
  magnitude2d : List (List ℚ)
  maxMagnitude : ℚ
deriving DecidableEq, Repr

/-! ## Stable sort: model of `Array.prototype.sort` with a numeric comparator -/

/-- Insert `x` after every element `y` with `le y x`; together with
`stableSort` this models JavaScript's stable ascending sort. -/
def stableInsert (le : α → α → Bool) (x : α) : List α → List α
  | [] => [x]
  | y :: ys => if le y x then y :: stableInsert le x ys else x :: y :: ys

/-- Stable ascending sort by `le` (model of `arr.sort((a, b) => key a - key b)`).
Elements are inserted left to right, so later equal elements stay later. -/
def stableSort (le : α → α → Bool) (l : List α) : List α :=
  l.foldl (fun acc x => stableInsert le x acc) []

theorem mem_stableInsert (le : α → α → Bool) (x : α) (l : List α) (a : α) :
    a ∈ stableInsert le x l ↔ a = x ∨ a ∈ l := by
  induction l with
  | nil => simp [stableInsert]
  | cons y ys ih =>
    by_cases h : le y x = true
    · simp only [stableInsert, if_pos h, List.mem_cons, ih]
      tauto
    · simp only [stableInsert, if_neg h, List.mem_cons]

theorem mem_stableSort (le : α → α → Bool) (l : List α) (a : α) :
    a ∈ stableSort le l ↔ a ∈ l := by
  suffices h : ∀ acc, a ∈ l.foldl (fun acc x => stableInsert le x acc) acc ↔
      a ∈ l ∨ a ∈ acc by
    simpa [stableSort] using h []
  induction l with
  | nil => intro acc; simp
  | cons y ys ih =>
    intro acc
    simp only [List.foldl_cons, ih, mem_stableInsert, List.mem_cons]
    tauto

/-! ## YinCore (worker inside src/services/spectrogram.ts) -/

/-- pYIN window size (`bufferSize = 2048`). -/
def bufferSize : ℕ := 2048

/-- `overlap = 1536` from the source. -/
def overlap : ℕ := 1536

/-- `step = bufferSize - overlap` (= 512, the hop). -/
def step : ℕ := bufferSize - overlap

/-- `YIN_HOP_SIZE = 512` (src/services/yin.ts re-export). -/
def YIN_HOP_SIZE : ℕ := 512

/-- `minFreq = 60`. -/
def minFreq : ℚ := 60

/-- `maxFreq = 1200`. -/
def maxFreq : ℚ := 1200

/-- `transitionCostWeight = 1.0`. -/
def transitionCostWeight : ℚ := 1

/-- `voicingTransitionCost = 1.5`. -/
def voicingTransitionCost : ℚ := 3 / 2

/-- Raw difference function of phase 1 of `computeYinBuffer`:
`d[τ] = Σ_{j < half} (buffer[j] - buffer[j+τ])²` with `half = n / 2`. -/
def rawDiff (buffer : List ℚ) (n : ℕ) (tau : ℕ) : ℚ :=
  ((List.range (n / 2)).map
    (fun j => (buffer.getD j 0 - buffer.getD (j + tau) 0) ^ 2)).sum

/-- Running sum `Σ_{k=1..tau} d[k]` of the raw difference function, as
accumulated by the normalization loop of `computeYinBuffer`. -/
def runningSumTo (buffer : List ℚ) (n : ℕ) (tau : ℕ) : ℚ :=
  ((List.range tau).map (fun k => rawDiff buffer n (k + 1))).sum

/-- The cumulative-mean normalization loop of `computeYinBuffer`: walks the
raw differences `d[1], d[2], ...` carrying the running sum and the index. -/
def cmndLoop : List ℚ → ℚ → ℕ → List ℚ
  | [], _, _ => []
  | d :: rest, runningSum, tau =>
    let s := runningSum + d
    (if s = 0 then 1 else d * tau / s) :: cmndLoop rest s (tau + 1)

/-- `computeYinBuffer(buffer, bufferSize)` from the worker: the squared
difference function followed by cumulative-mean normalization.  `d'[0]` is
overwritten with 1; for `τ ≥ 1` the entry is `1` when the running sum is `0`
and `d[τ]·τ / Σ_{k=1..τ} d[k]` otherwise. -/
def computeYinBuffer (buffer : List ℚ) (n : ℕ) : List ℚ :=
  let raw := (List.range (n / 2)).map (fun tau => rawDiff buffer n tau)
  match raw with
  | [] => []
  | _ :: rest => 1 :: cmndLoop rest 0 1

/-- `parabolicInterpolation(yinBuffer, tau)` from the worker, verbatim:
neighbours are clamped at the ends of the buffer and the refinement is
skipped when either clamp fires or the denominator vanishes. -/
def parabolicInterpolation (yinBuffer : List ℚ) (tau : ℕ) : ℚ :=
  let x0 := tau
  let x1 := if tau < yinBuffer.length - 1 then tau + 1 else tau
  let x2 := if tau > 0 then tau - 1 else tau
  if x0 = x1 then (x0 : ℚ)
  else if x0 = x2 then (x0 : ℚ)
  else
    let s0 := yinBuffer.getD x0 0
    let s1 := yinBuffer.getD x1 0
    let s2 := yinBuffer.getD x2 0
    let denominator := 2 * s0 - s2 - s1
    if denominator = 0 then (x0 : ℚ)
    else (x0 : ℚ) + (s2 - s1) / (2 * denominator)

/-- **C5.** For `0 < τ < length - 1` the parabolic interpolation returns
`τ + (d'[τ-1] - d'[τ+1]) / (2·(2·d'[τ] - d'[τ-1] - d'[τ+1]))`, and it
returns `τ` unchanged when that denominator is zero or when `τ` lies at a
boundary of the buffer (`τ = 0` or `τ ≥ length - 1`). -/
theorem parabolicInterpolation_characterization (yb : List ℚ) (tau : ℕ) :
    parabolicInterpolation yb tau =
      if tau = 0 ∨ yb.length - 1 ≤ tau then (tau : ℚ)
      else if 2 * yb.getD tau 0 - yb.getD (tau - 1) 0 - yb.getD (tau + 1) 0 = 0
        then (tau : ℚ)
      else (tau : ℚ) + (yb.getD (tau - 1) 0 - yb.getD (tau + 1) 0) /
        (2 * (2 * yb.getD tau 0 - yb.getD (tau - 1) 0 - yb.getD (tau + 1) 0)) := by
  unfold parabolicInterpolation
  by_cases h0 : tau = 0
  · subst h0
    by_cases hlen : 0 < yb.length - 1
    · have hne : (0 : ℕ) ≠ 0 + 1 := by omega
      simp [hlen, hne]
    · simp [hlen]
  · by_cases hb : tau < yb.length - 1
    · have hne1 : tau ≠ tau + 1 := by omega
      have hne2 : tau ≠ tau - 1 := by omega
      have hpos : tau > 0 := by omega
      have hnb : ¬ (tau = 0 ∨ yb.length - 1 ≤ tau) := by omega
      simp only [hb, if_true, gt_iff_lt, hpos, if_neg hne1, if_neg hne2]
      rw [if_neg (show ¬ (tau = 0 ∨ yb.length - 1 ≤ tau) by omega)]
    · rw [if_pos (show tau = 0 ∨ yb.length - 1 ≤ tau by omega)]
      simp [hb]

theorem cmndLoop_length (l : List ℚ) (s : ℚ) (t : ℕ) :
    (cmndLoop l s t).length = l.length := by
  induction l generalizing s t with
  | nil => rfl
  | cons d rest ih => simp [cmndLoop, ih]

theorem cmndLoop_getD (l : List ℚ) (s : ℚ) (t : ℕ) (i : ℕ) (hi : i < l.length) :
    (cmndLoop l s t).getD i 0 =
      if s + (l.take (i + 1)).sum = 0 then 1
      else l.getD i 0 * ((t + i : ℕ) : ℚ) / (s + (l.take (i + 1)).sum) := by
  induction l generalizing s t i with
  | nil => simp at hi
  | cons d rest ih =>
    cases i with
    | zero => simp [cmndLoop]
    | succ j =>
      have hj : j < rest.length := by simpa using hi
      have := ih (s + d) (t + 1) j hj
      simp only [cmndLoop, List.getD_cons_succ, List.take_succ_cons, List.sum_cons]
      rw [this]
      have harith : s + d + (rest.take (j + 1)).sum = s + (d + (rest.take (j + 1)).sum) := by ring
      have hidx : t + 1 + j = t + (j + 1) := by omega
      rw [harith, hidx]

theorem computeYinBuffer_length (b : List ℚ) (n : ℕ) :
    (computeYinBuffer b n).length = n / 2 := by
  unfold computeYinBuffer
  cases hh : n / 2 with
  | zero => simp [hh]
  | succ m =>
    simp only [hh, List.range_succ_eq_map, List.map_cons, List.map_map]
    simp [cmndLoop_length]

/-- **C10.** The cumulative-mean normalization in `computeYinBuffer` is total
and never divides by zero: the buffer has length `n / 2`; `d'[0] = 1`; and for
every `τ ≥ 1` inside the buffer, if the running sum `Σ_{k=1..τ} d[k]` is zero
(as on an all-zero frame) the entry is set to `1`, otherwise it is
`d[τ]·τ / Σ_{k=1..τ} d[k]`.  In this exact-arithmetic embedding every entry is
therefore given by a closed finite formula for any finite input: no `NaN` or
infinity can arise. -/
theorem computeYinBuffer_characterization (b : List ℚ) (n : ℕ) :
    (computeYinBuffer b n).length = n / 2 ∧
    (0 < n / 2 → (computeYinBuffer b n).getD 0 0 = 1) ∧
    (∀ tau : ℕ, 0 < tau → tau < n / 2 →
      (computeYinBuffer b n).getD tau 0 =
        if runningSumTo b n tau = 0 then 1
        else rawDiff b n tau * (tau : ℚ) / runningSumTo b n tau) := by
  refine ⟨computeYinBuffer_length b n, ?_, ?_⟩
  · intro h
    unfold computeYinBuffer
    cases hh : n / 2 with
    | zero => omega
    | succ m => simp [hh, List.range_succ_eq_map]
  · intro tau htau hlt
    unfold computeYinBuffer
    cases hh : n / 2 with
    | zero => omega
    | succ m =>
      simp only [hh, List.range_succ_eq_map, List.map_cons, List.map_map,
        Function.comp_def, Nat.succ_eq_add_one]
      obtain ⟨j, rfl⟩ : ∃ j, tau = j + 1 := ⟨tau - 1, by omega⟩
      have hj : j < m := by omega
      have hjlen : j < ((List.range m).map
          (fun x => rawDiff b n (x + 1))).length := by simpa using hj
      rw [List.getD_cons_succ]
      rw [cmndLoop_getD _ _ _ _ hjlen]
      have hsum : (0 : ℚ) + ((((List.range m).map
          (fun x => rawDiff b n (x + 1))).take (j + 1)).sum) =
          runningSumTo b n (j + 1) := by
        rw [← List.map_take, List.take_range, Nat.min_eq_left (by omega : j + 1 ≤ m)]
        unfold runningSumTo
        simp
      have hget : ((List.range m).map
          (fun x => rawDiff b n (x + 1))).getD j 0 = rawDiff b n (j + 1) := by
        rw [List.getD_eq_getElem _ _ hjlen]
        simp
      rw [hsum, hget]
      split_ifs with hz
      · rfl
      · push_cast
        ring

/-- Witness for C10 at the concrete frame `[1, 2, 0, 1]` with `n = 4`:
the running sum at `τ = 1` is `5 ≠ 0` and the entry is `d[1]·1/5 = 1`. -/
theorem computeYinBuffer_characterization_witness :
    (0 < 1 ∧ 1 < 4 / 2) ∧
    (computeYinBuffer [1, 2, 0, 1] 4).getD 1 0 =
      (if runningSumTo [1, 2, 0, 1] 4 1 = 0 then 1
       else rawDiff [1, 2, 0, 1] 4 1 * (1 : ℚ) / runningSumTo [1, 2, 0, 1] 4 1) := by
  refine ⟨⟨by decide, by decide⟩, ?_⟩
  have h := (computeYinBuffer_characterization [1, 2, 0, 1] 4).2.2 1 (by decide) (by decide)
  simpa using h

/-! ## FrameGrid (src/utils/audioUtils.ts `snapTime`) -/

/-- `snapTime(time, sampleRate)`: snap a time to the nearest analysis frame.
The source returns `time` unchanged for a falsy sample rate; `Math.round`
(half-up) is Mathlib's `round` on `ℚ`. -/
def snapTime (time : ℚ) (sampleRate : ℚ) : ℚ :=
  if sampleRate = 0 then time
  else
    let frameDur := (YIN_HOP_SIZE : ℚ) / sampleRate
    ((round (time / frameDur) : ℤ) : ℚ) * frameDur

/-- **C6.** For every time `t` and sample rate `sr > 0`, grid snapping is
idempotent: `snapTime (snapTime t sr) sr = snapTime t sr`; moreover the
computed value is `round(t·sr/HOP)·HOP/sr` with `HOP = 512`, as the spec
writes it. -/
theorem snapTime_idempotent (t sr : ℚ) (h : 0 < sr) :
    snapTime (snapTime t sr) sr = snapTime t sr ∧
    snapTime t sr = ((round (t * sr / 512) : ℤ) : ℚ) * 512 / sr := by
  have hne : sr ≠ 0 := ne_of_gt h
  have hfd : (YIN_HOP_SIZE : ℚ) / sr ≠ 0 := by
    simp [YIN_HOP_SIZE]
    exact hne
  have harg : t / ((YIN_HOP_SIZE : ℚ) / sr) = t * sr / 512 := by
    rw [div_div_eq_mul_div]
    norm_num [YIN_HOP_SIZE]
  have hcancel :
      ((round (t / ((YIN_HOP_SIZE : ℚ) / sr)) : ℤ) : ℚ) * ((YIN_HOP_SIZE : ℚ) / sr) /
        ((YIN_HOP_SIZE : ℚ) / sr) = ((round (t / ((YIN_HOP_SIZE : ℚ) / sr)) : ℤ) : ℚ) :=
    mul_div_cancel_right₀ _ hfd
  constructor
  · simp only [snapTime, if_neg hne]
    rw [hcancel, round_intCast]
  · simp only [snapTime, if_neg hne]
    rw [harg, mul_div_assoc]
    ring_nf
    norm_num [YIN_HOP_SIZE]
    ring

/-- Witness for C6 at `t = 1/3`, `sr = 44100`. -/
theorem snapTime_idempotent_witness :
    (0 : ℚ) < 44100 ∧
    (snapTime (snapTime (1/3) 44100) 44100 = snapTime (1/3) 44100 ∧
      snapTime (1/3 : ℚ) 44100 = ((round ((1/3 : ℚ) * 44100 / 512) : ℤ) : ℚ) * 512 / 44100) :=
  ⟨by norm_num, snapTime_idempotent (1/3) 44100 (by norm_num)⟩

/-! ## PyinEngine: candidate extraction (worker `runPyin`, phase 1)

Division by zero note: JavaScript produces `±Infinity` where `ℚ` yields `0`;
no computation path used by a theorem below divides by zero. -/

/-- RMS of one windowed chunk: `sqrt(Σ x² / chunk.length)`; `sqrtF` models
`Math.sqrt`. -/
def rmsOf (sqrtF : ℚ → ℚ) (chunk : List ℚ) : ℚ :=
  sqrtF ((chunk.map (fun x => x * x)).sum / (chunk.length : ℚ))

/-- The voiced candidates of the `τ` loop of `runPyin`: each
`τ ∈ [minPeriod, min(maxPeriod, yinBuffer.length - 1))` whose `d'[τ]` is
below the effective threshold and a strict local minimum yields frequency
`sr / parabolic(τ)`, probability `max(1 - d'[τ], 1e-4)` and dip `d'[τ]`.
(At `τ = 0` the source compares against `yinBuffer[-1] = undefined`, which
is falsy; `getD (0-1)` compares `d'[0] < d'[0]`, equally false.) -/
def tauLoopCandidates (sampleRate effectiveThreshold : ℚ)
    (yinBuffer : List ℚ) (minPeriod maxPeriod : ℕ) : List Candidate :=
  (List.range' minPeriod (min maxPeriod (yinBuffer.length - 1) - minPeriod)).filterMap
    (fun tau =>
      if yinBuffer.getD tau 0 < effectiveThreshold ∧
          yinBuffer.getD tau 0 < yinBuffer.getD (tau - 1) 0 ∧
          yinBuffer.getD tau 0 < yinBuffer.getD (tau + 1) 0 then
        let betterTau := parabolicInterpolation yinBuffer tau
        let freq := sampleRate / betterTau
        let prob0 := 1 - yinBuffer.getD tau 0
        let prob := if prob0 < 1/10000 then 1/10000 else prob0
        some ⟨freq, prob, yinBuffer.getD tau 0⟩
      else none)

/-- One frame of candidate extraction (`runPyin` loop body): RMS gate, YIN
buffer, `τ` loop, deep-search cap of 20 candidates by smallest dip, and the
appended unvoiced candidate. -/
def frameCandidates (sqrtF : ℚ → ℚ) (sampleRate threshold rmsThreshold : ℚ)
    (isDeepSearch : Bool) (chunk : List ℚ) : List Candidate :=
  let rms := rmsOf sqrtF chunk
  if rms < rmsThreshold then [⟨0, 99/100, 1/100⟩]
  else
    let yinBuffer := computeYinBuffer chunk bufferSize
    let effectiveThreshold := if isDeepSearch then 10 else threshold
    let minPeriod := (⌊sampleRate / maxFreq⌋).toNat
    let maxPeriod := (⌊sampleRate / minFreq⌋).toNat
    let base := tauLoopCandidates sampleRate effectiveThreshold yinBuffer
      minPeriod maxPeriod
    let capped := if isDeepSearch ∧ 20 < base.length then
        (stableSort (fun a b => decide (a.yinDip ≤ b.yinDip)) base).take 20
      else base
    let bestDip := capped.foldl (fun b c => if c.yinDip < b then c.yinDip else b) 1
    let unvoicedProb0 := min (9/10) (max (1/20) (bestDip * (1/2)))
    let unvoicedProb := if isDeepSearch then 1/1000000000000000 else unvoicedProb0
    capped ++ [⟨0, unvoicedProb, 1 - unvoicedProb⟩]

/-- Phase 1 of `runPyin`: per-frame candidate extraction over
`numFrames = ⌊(totalSamples - bufferSize)/step⌋` frames (none when the floor
is zero or negative). -/
def extractCandidates (sqrtF : ℚ → ℚ) (data : List ℚ) (sampleRate : ℚ)
    (threshold rmsThreshold : ℚ) : List (List Candidate) :=
  let isDeepSearch := decide ((4:ℚ)/5 < threshold)
  let numFrames : ℤ := Int.fdiv ((data.length : ℤ) - (bufferSize : ℤ)) (step : ℤ)
  (List.range numFrames.toNat).map (fun i =>
    let chunk := (data.drop (i * step)).take bufferSize
    frameCandidates sqrtF sampleRate threshold rmsThreshold isDeepSearch chunk)

/-! ## PyinEngine: Viterbi decoding (worker `runPyin`, phase 2) -/

/-- Viterbi transition cost (`log2F` models `Math.log2`):
`|log2(curr.f / prev.f)| · transitionCostWeight` between voiced candidates,
`voicingTransitionCost` when the frequencies differ otherwise, else `0`. -/
def transCost (log2F : ℚ → ℚ) (prev curr : Candidate) : ℚ :=
  if 0 < prev.frequency ∧ 0 < curr.frequency then
    |log2F (curr.frequency / prev.frequency)| * transitionCostWeight
  else if prev.frequency ≠ curr.frequency then voicingTransitionCost
  else 0

/-- The running minimum of the inner `j` loop of the Viterbi step.  `none`
models the initial `Infinity`; updates are strict (`<`), so the first index
attaining the minimum wins.  Arguments: remaining entries, current index,
running `(minCost, bestPrevIdx)`. -/
def pickMinLoop : List (Option ℚ) → ℕ → Option ℚ → ℕ → Option ℚ × ℕ
  | [], _, best, bestIdx => (best, bestIdx)
  | none :: rest, j, best, bestIdx => pickMinLoop rest (j + 1) best bestIdx
  | some x :: rest, j, best, bestIdx =>
    match best with
    | none => pickMinLoop rest (j + 1) (some x) j
    | some m =>
      if x < m then pickMinLoop rest (j + 1) (some x) j
      else pickMinLoop rest (j + 1) best bestIdx

/-- First-minimum scan starting from `minCost = Infinity`, `bestPrevIdx = 0`. -/
def pickMin (l : List (Option ℚ)) : Option ℚ × ℕ := pickMinLoop l 0 none 0

/-- Total path costs `cost[t-1][j] + trans(j, k) + emission(k)` over `j`, for
a fixed current candidate `k`. -/
def totalPathCosts (log2F : ℚ → ℚ) (prevCands : List Candidate)
    (prevCost : List (Option ℚ)) (curr : Candidate) : List (Option ℚ) :=
  (prevCands.zip prevCost).map (fun pc =>
    pc.2.map (fun c => c + transCost log2F pc.1 curr + (1 - curr.probability)))

/-- One Viterbi column: `(cost[t][k], path[t][k])` for every current
candidate `k`. -/
def viterbiRow (log2F : ℚ → ℚ) (prevCands : List Candidate)
    (prevCost : List (Option ℚ)) (currCands : List Candidate) :
    List (Option ℚ × ℕ) :=
  currCands.map (fun curr => pickMin (totalPathCosts log2F prevCands prevCost curr))

/-- Rows `1..T-1` of the cost/path tables, threaded frame by frame. -/
def viterbiTail (log2F : ℚ → ℚ) :
    List Candidate → List (Option ℚ) → List (List Candidate) →
    List (List (Option ℚ × ℕ))
  | _, _, [] => []
  | prevCands, prevCost, r :: rest =>
    let row := viterbiRow log2F prevCands prevCost r
    row :: viterbiTail log2F r (row.map Prod.fst) rest

/-- All rows of the cost/path tables; row 0 holds the initial costs
`1 - p(k)` (its back-pointer component is the unused initial `0`, matching
the never-assigned `path[0]`). -/
def viterbiTable (log2F : ℚ → ℚ) (lattice : List (List Candidate)) :
    List (List (Option ℚ × ℕ)) :=
  match lattice with
  | [] => []
  | r0 :: rest =>
    let row0 := r0.map (fun c => ((some (1 - c.probability) : Option ℚ), 0))
    row0 :: viterbiTail log2F r0 (row0.map Prod.fst) rest

/-- The backtracking loop read back to front: from the reversed back-pointer
rows `path[T-1], ..., path[1]` and the final best index, produce
`[sel(T-1), ..., sel(0)]` with `sel(t) = path[t+1][sel(t+1)]`. -/
def backtrackRev : List (List ℕ) → ℕ → List ℕ
  | [], b => [b]
  | pr :: rest, b => b :: backtrackRev rest (pr.getD b 0)

/-- Selected candidate index per frame: start from the first index
minimising the final cost row and follow the back-pointers. -/
def selIndices (log2F : ℚ → ℚ) (lattice : List (List Candidate)) : List ℕ :=
  let table := viterbiTable log2F lattice
  let pathRows := table.map (fun row => row.map Prod.snd)
  let finalRow := table.getLast?.getD []
  let bestIdx := (pickMin (finalRow.map Prod.fst)).2
  (backtrackRev ((pathRows.drop 1).reverse) bestIdx).reverse

/-- Build the decoded frame list (`rawResults`): frame `t` carries timestamp
`t·step/sr`, the selected candidate's frequency and probability,
`hasPitch ⇔ frequency > 0`, and the voiced candidates kept for the UI. -/
def decodeFrames (sampleRate : ℚ) (lattice : List (List Candidate))
    (sel : List ℕ) : List PitchFrame :=
  (List.range lattice.length).map (fun t =>
    let cands := lattice.getD t []
    let candidate := cands.getD (sel.getD t 0) ⟨0, 0, 0⟩
    { timestamp := (t : ℚ) * (step : ℚ) / sampleRate
      frequency := candidate.frequency
      probability := candidate.probability
      hasPitch := decide (0 < candidate.frequency)
      candidates := (cands.filter (fun c => decide (0 < c.frequency))).map
        (fun c => ⟨c.frequency, c.probability⟩) })

/-! ## PyinEngine: despeckling post-pass (worker `runPyin`, phase 3) -/

/-- `minDurationFrames = 8` (the spec's `minVoicedRun`). -/
def minDurationFrames : ℕ := 8

/-- Forcing a frame to unvoiced: `frequency ← 0`, `hasPitch ← false`. -/
def zeroFrame (f : PitchFrame) : PitchFrame :=
  { f with frequency := 0, hasPitch := false }

/-- The despeckling loop: `run` accumulates the currently open voiced run;
an unvoiced frame (or the end of the track) closes it, zeroing it when it is
shorter than `minRun`. -/
def despeckleLoop (minRun : ℕ) : List PitchFrame → List PitchFrame → List PitchFrame
  | run, [] => if run.length < minRun then run.map zeroFrame else run
  | run, f :: rest =>
    if f.hasPitch then despeckleLoop minRun (run ++ [f]) rest
    else
      (if run.length < minRun then run.map zeroFrame else run) ++
        f :: despeckleLoop minRun [] rest

/-- Despeckling as performed by `runPyin` on `cleanedResults`. -/
def despeckle (minRun : ℕ) (frames : List PitchFrame) : List PitchFrame :=
  despeckleLoop minRun [] frames

/-! ## PyinEngine: top level -/

/-- Default `threshold` (0.75). -/
def defaultThreshold : ℚ := 3/4

/-- Default `rmsThreshold` (0.01). -/
def defaultRmsThreshold : ℚ := 1/100

/-- Optional parameter object of `extractPitch` / `runPyin`. -/
structure PyinParams where
  threshold : Option ℚ
  rmsThreshold : Option ℚ
deriving DecidableEq, Repr

/-- `runPyin(data, sampleRate, params)`: candidate extraction, Viterbi
decoding with backtracking, and — outside deep-search mode
(`threshold > 0.8`) — despeckling.  The `T === 0` early return yields `[]`. -/
def runPyin (sqrtF log2F : ℚ → ℚ) (data : List ℚ) (sampleRate : ℚ)
    (params : PyinParams) : List PitchFrame :=
  let threshold := params.threshold.getD defaultThreshold
  let rmsThreshold := params.rmsThreshold.getD defaultRmsThreshold
  let isDeepSearch := decide ((4:ℚ)/5 < threshold)
  let lattice := extractCandidates sqrtF data sampleRate threshold rmsThreshold
  if lattice.length = 0 then []
  else
    let raw := decodeFrames sampleRate lattice (selIndices log2F lattice)
    if isDeepSearch then raw else despeckle minDurationFrames raw

theorem length_dropWhile_le (p : α → Bool) (l : List α) :
    (l.dropWhile p).length ≤ l.length := by
  have h : (l.takeWhile p).length + (l.dropWhile p).length = l.length := by
    rw [← List.length_append, List.takeWhile_append_dropWhile]
  omega

/-- Closing a voiced run: zero it out iff it is shorter than `minRun`
(the body of both flush sites of the despeckling loop). -/
def closeRun (minRun : ℕ) (run : List PitchFrame) : List PitchFrame :=
  if run.length < minRun then run.map zeroFrame else run

/-- Specification-side despeckling, written as the spec describes it: the
track decomposes into a maximal leading voiced run followed (if anything
remains) by an unvoiced frame and the rest; each maximal voiced run shorter
than `minRun` is forced to unvoiced, runs at the beginning and at the end of
the track included. -/
def despeckleSpec (minRun : ℕ) (frames : List PitchFrame) : List PitchFrame :=
  match h : frames.dropWhile (fun f => f.hasPitch) with
  | [] => closeRun minRun (frames.takeWhile (fun f => f.hasPitch))
  | u :: rest2 =>
    closeRun minRun (frames.takeWhile (fun f => f.hasPitch)) ++
      u :: despeckleSpec minRun rest2
termination_by frames.length
decreasing_by
  have hle := length_dropWhile_le (fun f => f.hasPitch) frames
  rw [h] at hle
  simp only [List.length_cons] at hle
  omega

theorem despeckleLoop_closes (minRun : ℕ) (run : List PitchFrame) :
    despeckleLoop minRun run [] = closeRun minRun run := rfl

theorem despeckleLoop_run_split (minRun : ℕ) :
    ∀ (frames acc : List PitchFrame),
      despeckleLoop minRun acc frames =
        match frames.dropWhile (fun f => f.hasPitch) with
        | [] => closeRun minRun (acc ++ frames.takeWhile (fun f => f.hasPitch))
        | u :: rest2 =>
          closeRun minRun (acc ++ frames.takeWhile (fun f => f.hasPitch)) ++
            u :: despeckleLoop minRun [] rest2 := by
  intro frames
  induction frames with
  | nil =>
    intro acc
    simp [despeckleLoop, closeRun]
  | cons f fs ih =>
    intro acc
    by_cases h : f.hasPitch = true
    · rw [show despeckleLoop minRun acc (f :: fs) =
          despeckleLoop minRun (acc ++ [f]) fs by simp [despeckleLoop, h]]
      rw [ih (acc ++ [f])]
      rw [List.takeWhile_cons_of_pos h, List.dropWhile_cons_of_pos h]
      cases hd : fs.dropWhile (fun f => f.hasPitch) with
      | nil => simp
      | cons u rest2 => simp
    · rw [show despeckleLoop minRun acc (f :: fs) =
          closeRun minRun acc ++ f :: despeckleLoop minRun [] fs by
            simp [despeckleLoop, h, closeRun]]
      rw [List.takeWhile_cons_of_neg h, List.dropWhile_cons_of_neg h]
      simp

theorem despeckle_eq_despeckleSpec (minRun : ℕ) (frames : List PitchFrame) :
    despeckle minRun frames = despeckleSpec minRun frames := by
  suffices H : ∀ (n : ℕ) (fr : List PitchFrame), fr.length ≤ n →
      despeckle minRun fr = despeckleSpec minRun fr from H frames.length frames le_rfl
  intro n
  induction n using Nat.strong_induction_on with
  | _ n ih =>
    intro fr hlen
    unfold despeckle
    rw [despeckleLoop_run_split]
    rw [despeckleSpec]
    cases hd : fr.dropWhile (fun f => f.hasPitch) with
    | nil => simp
    | cons u rest2 =>
      have hle := length_dropWhile_le (fun f => f.hasPitch) fr
      rw [hd] at hle
      simp only [List.length_cons] at hle
      have hrec : despeckleLoop minRun [] rest2 = despeckleSpec minRun rest2 := by
        have h2 := ih rest2.length (by omega) rest2 le_rfl
        simpa [despeckle] using h2
      simp [hrec]

/-- **C3.** Despeckling forces every maximal contiguous run of voiced frames
shorter than 8 frames to unvoiced (frequency `0`, `hasPitch` `false`), runs
touching the beginning or the end of the track included: the code's loop
(`despeckle`) coincides with the run-by-run description (`despeckleSpec`).
In non-deep-search mode (`threshold ≤ 0.8`) `runPyin` applies this pass to
the decoded track; in deep-search mode the decoded track is returned with
despeckling skipped. -/
theorem despeckling_characterization :
    (∀ (minRun : ℕ) (frames : List PitchFrame),
      despeckle minRun frames = despeckleSpec minRun frames) ∧
    (∀ (sqrtF log2F : ℚ → ℚ) (data : List ℚ) (sampleRate : ℚ)
        (params : PyinParams),
      (params.threshold.getD defaultThreshold ≤ 4/5 →
        runPyin sqrtF log2F data sampleRate params =
          (if (extractCandidates sqrtF data sampleRate
                (params.threshold.getD defaultThreshold)
                (params.rmsThreshold.getD defaultRmsThreshold)).length = 0 then []
           else despeckleSpec minDurationFrames
             (decodeFrames sampleRate
               (extractCandidates sqrtF data sampleRate
                 (params.threshold.getD defaultThreshold)
                 (params.rmsThreshold.getD defaultRmsThreshold))
               (selIndices log2F
                 (extractCandidates sqrtF data sampleRate
                   (params.threshold.getD defaultThreshold)
                   (params.rmsThreshold.getD defaultRmsThreshold)))))) ∧
      (4/5 < params.threshold.getD defaultThreshold →
        runPyin sqrtF log2F data sampleRate params =
          (if (extractCandidates sqrtF data sampleRate
                (params.threshold.getD defaultThreshold)
                (params.rmsThreshold.getD defaultRmsThreshold)).length = 0 then []
           else decodeFrames sampleRate
             (extractCandidates sqrtF data sampleRate
               (params.threshold.getD defaultThreshold)
               (params.rmsThreshold.getD defaultRmsThreshold))
             (selIndices log2F
               (extractCandidates sqrtF data sampleRate
                 (params.threshold.getD defaultThreshold)
                 (params.rmsThreshold.getD defaultRmsThreshold)))))) := by
  refine ⟨despeckle_eq_despeckleSpec, ?_⟩
  intro sqrtF log2F data sampleRate params
  constructor
  · intro hnd
    have hdec : ¬ ((4:ℚ)/5 < params.threshold.getD defaultThreshold) := not_lt.mpr hnd
    unfold runPyin
    simp only [decide_eq_true_eq]
    split_ifs with hz
    · rfl
    · exact despeckle_eq_despeckleSpec _ _
  · intro hd
    unfold runPyin
    simp only [decide_eq_true_eq]
    split_ifs with hz
    · rfl
    · rfl

/-- Witness for C3: at `threshold = 1/2` (non-deep) and `threshold = 9/10`
(deep) on empty audio, both branches of the theorem apply; additionally the
loop/spec equality is instantiated on a concrete one-frame track whose
single (boundary-touching) voiced run is shorter than 8 frames. -/
theorem despeckling_characterization_witness :
    (despeckle 8 [⟨0, 440, 9/10, true, []⟩] =
      despeckleSpec 8 [⟨0, 440, 9/10, true, []⟩]) ∧
    ((1:ℚ)/2 ≤ 4/5 ∧
      runPyin (fun _ => 0) (fun _ => 0) [] 44100 ⟨some (1/2), none⟩ =
        (if (extractCandidates (fun _ => 0) [] 44100 (1/2) (1/100)).length = 0 then []
         else despeckleSpec minDurationFrames
           (decodeFrames 44100
             (extractCandidates (fun _ => 0) [] 44100 (1/2) (1/100))
             (selIndices (fun _ => 0)
               (extractCandidates (fun _ => 0) [] 44100 (1/2) (1/100)))))) ∧
    ((4:ℚ)/5 < 9/10 ∧
      runPyin (fun _ => 0) (fun _ => 0) [] 44100 ⟨some (9/10), none⟩ =
        (if (extractCandidates (fun _ => 0) [] 44100 (9/10) (1/100)).length = 0 then []
         else decodeFrames 44100
           (extractCandidates (fun _ => 0) [] 44100 (9/10) (1/100))
           (selIndices (fun _ => 0)
             (extractCandidates (fun _ => 0) [] 44100 (9/10) (1/100))))) :=
  ⟨despeckling_characterization.1 8 [⟨0, 440, 9/10, true, []⟩],
   ⟨by norm_num,
    (despeckling_characterization.2 (fun _ => 0) (fun _ => 0) [] 44100
      ⟨some (1/2), none⟩).1 (by norm_num)⟩,
   ⟨by norm_num,
    (despeckling_characterization.2 (fun _ => 0) (fun _ => 0) [] 44100
      ⟨some (9/10), none⟩).2 (by norm_num)⟩⟩

theorem pickMinLoop_spec (l : List ℚ) :
    ∀ (j0 b0 : ℕ) (m0 : ℚ),
    ∃ m i, pickMinLoop (l.map some) j0 (some m0) b0 = (some m, i) ∧
      m ≤ m0 ∧
      (∀ p, p < l.length → m ≤ l.getD p 0) ∧
      ((i = b0 ∧ m = m0) ∨
        (∃ p, p < l.length ∧ i = j0 + p ∧ l.getD p 0 = m ∧ m < m0 ∧
          (∀ q, q < p → m < l.getD q 0))) := by
  induction l with
  | nil =>
    intro j0 b0 m0
    exact ⟨m0, b0, rfl, le_refl _, by simp, Or.inl ⟨rfl, rfl⟩⟩
  | cons x rest ih =>
    intro j0 b0 m0
    by_cases hx : x < m0
    · obtain ⟨m, i, heq, hle, hmin, hcase⟩ := ih (j0 + 1) j0 x
      refine ⟨m, i, ?_, le_trans hle (le_of_lt hx), ?_, ?_⟩
      · simpa [pickMinLoop, hx] using heq
      · intro p hp
        cases p with
        | zero => simpa using hle
        | succ q => simpa using hmin q (by simpa using hp)
      · rcases hcase with ⟨hi, hm⟩ | ⟨p, hp, hi, hv, hlt, hfirst⟩
        · right
          refine ⟨0, by simp, by omega, by simpa using hm.symm, ?_, by omega⟩
          rw [hm]; exact hx
        · right
          refine ⟨p + 1, by simpa using hp, by omega, by simpa using hv,
            lt_trans hlt hx, ?_⟩
          intro q hq
          cases q with
          | zero => simpa using hlt
          | succ q2 => simpa using hfirst q2 (by omega)
    · obtain ⟨m, i, heq, hle, hmin, hcase⟩ := ih (j0 + 1) b0 m0
      refine ⟨m, i, ?_, hle, ?_, ?_⟩
      · simpa [pickMinLoop, hx] using heq
      · intro p hp
        cases p with
        | zero => simpa using le_trans hle (not_lt.mp hx)
        | succ q => simpa using hmin q (by simpa using hp)
      · rcases hcase with ⟨hi, hm⟩ | ⟨p, hp, hi, hv, hlt, hfirst⟩
        · exact Or.inl ⟨hi, hm⟩
        · right
          refine ⟨p + 1, by simpa using hp, by omega, by simpa using hv, hlt, ?_⟩
          intro q hq
          cases q with
          | zero => simpa using lt_of_lt_of_le hlt (not_lt.mp hx)
          | succ q2 => simpa using hfirst q2 (by omega)

theorem pickMin_spec (l : List ℚ) (hne : l ≠ []) :
    ∃ m i, pickMin (l.map some) = (some m, i) ∧
      i < l.length ∧ l.getD i 0 = m ∧
      (∀ p, p < l.length → m ≤ l.getD p 0) ∧
      (∀ q, q < i → m < l.getD q 0) := by
  cases l with
  | nil => exact absurd rfl hne
  | cons x rest =>
    have hstart : pickMin ((x :: rest).map some) =
        pickMinLoop (rest.map some) 1 (some x) 0 := by
      simp [pickMin, pickMinLoop]
    obtain ⟨m, i, heq, hle, hmin, hcase⟩ := pickMinLoop_spec rest 1 0 x
    rcases hcase with ⟨hi, hm⟩ | ⟨p, hp, hi, hv, hlt, hfirst⟩
    · refine ⟨m, i, by rw [hstart]; exact heq,
        by simp only [List.length_cons]; omega, ?_, ?_, ?_⟩
      · subst hi; simpa using hm.symm
      · intro p hp
        cases p with
        | zero => simpa using le_of_eq hm
        | succ q => simpa using hmin q (by simpa using hp)
      · intro q hq; omega
    · refine ⟨m, i, by rw [hstart]; exact heq,
        by simp only [List.length_cons]; omega, ?_, ?_, ?_⟩
      · rw [hi, show 1 + p = p + 1 from by omega]
        simpa using hv
      · intro p2 hp2
        cases p2 with
        | zero => simpa using le_of_lt hlt
        | succ q => simpa using hmin q (by simpa using hp2)
      · intro q hq
        cases q with
        | zero => simpa using hlt
        | succ q2 =>
          have : q2 < p := by omega
          simpa using hfirst q2 this

/-- Row `t` of the candidate lattice (`allCandidates[t]`). -/
def latRow (lattice : List (List Candidate)) (t : ℕ) : List Candidate :=
  lattice.getD t []

/-- Candidate `k` of frame `t` (`allCandidates[t][k]`). -/
def latCand (lattice : List (List Candidate)) (t k : ℕ) : Candidate :=
  (latRow lattice t).getD k ⟨0, 0, 0⟩

/-- `cost[t][k]` of the Viterbi tables (`none` models `Infinity`). -/
def costAt (log2F : ℚ → ℚ) (lattice : List (List Candidate)) (t k : ℕ) :
    Option ℚ :=
  (((viterbiTable log2F lattice).getD t []).getD k (none, 0)).1

/-- `path[t][k]` of the Viterbi tables. -/
def pathAt (log2F : ℚ → ℚ) (lattice : List (List Candidate)) (t k : ℕ) : ℕ :=
  (((viterbiTable log2F lattice).getD t []).getD k (none, 0)).2

/-- The finite value carried by `cost[t][k]`. -/
def costValAt (log2F : ℚ → ℚ) (lattice : List (List Candidate)) (t k : ℕ) : ℚ :=
  (costAt log2F lattice t k).getD 0

/-- Cost of extending the best path ending at candidate `j` of frame `t`
with candidate `k` of frame `t+1`:
`cost[t][j] + trans(j, k) + emission(k)`. -/
def stepCost (log2F : ℚ → ℚ) (lattice : List (List Candidate)) (t j k : ℕ) : ℚ :=
  costValAt log2F lattice t j +
    transCost log2F (latCand lattice t j) (latCand lattice (t + 1) k) +
    (1 - (latCand lattice (t + 1) k).probability)

theorem viterbiTail_length (log2F : ℚ → ℚ) :
    ∀ (rest : List (List Candidate)) (pc : List Candidate)
      (pco : List (Option ℚ)),
      (viterbiTail log2F pc pco rest).length = rest.length := by
  intro rest
  induction rest with
  | nil => intro pc pco; rfl
  | cons r rs ih =>
    intro pc pco
    simp only [viterbiTail, List.length_cons, ih]

theorem viterbiTable_length (log2F : ℚ → ℚ) (lattice : List (List Candidate)) :
    (viterbiTable log2F lattice).length = lattice.length := by
  cases lattice with
  | nil => rfl
  | cons r0 rest =>
    simp only [viterbiTable, List.length_cons, viterbiTail_length]

theorem viterbiRow_length (log2F : ℚ → ℚ) (pc : List Candidate)
    (pco : List (Option ℚ)) (cur : List Candidate) :
    (viterbiRow log2F pc pco cur).length = cur.length := by
  simp [viterbiRow]

theorem viterbiTail_chain (log2F : ℚ → ℚ) :
    ∀ (rest : List (List Candidate)) (pc : List Candidate)
      (pco : List (Option ℚ)) (t : ℕ), t + 1 < rest.length →
      (viterbiTail log2F pc pco rest).getD (t + 1) [] =
        viterbiRow log2F (rest.getD t [])
          (((viterbiTail log2F pc pco rest).getD t []).map Prod.fst)
          (rest.getD (t + 1) []) := by
  intro rest
  induction rest with
  | nil => intro pc pco t ht; simp at ht
  | cons r rs ih =>
    intro pc pco t ht
    cases t with
    | zero =>
      cases rs with
      | nil => simp at ht
      | cons r2 rs2 => rfl
    | succ s =>
      have hs : s + 1 < rs.length := by simpa using ht
      have h := ih r ((viterbiRow log2F pc pco r).map Prod.fst) s hs
      simpa [viterbiTail] using h

theorem viterbiTable_zero (log2F : ℚ → ℚ) (r0 : List Candidate)
    (rest : List (List Candidate)) :
    (viterbiTable log2F (r0 :: rest)).getD 0 [] =
      r0.map (fun c => ((some (1 - c.probability) : Option ℚ), 0)) := rfl

theorem viterbiTable_succ (log2F : ℚ → ℚ) (lattice : List (List Candidate))
    (t : ℕ) (ht : t + 1 < lattice.length) :
    (viterbiTable log2F lattice).getD (t + 1) [] =
      viterbiRow log2F (latRow lattice t)
        (((viterbiTable log2F lattice).getD t []).map Prod.fst)
        (latRow lattice (t + 1)) := by
  cases lattice with
  | nil => simp at ht
  | cons r0 rest =>
    cases t with
    | zero =>
      cases rest with
      | nil => simp at ht
      | cons r1 rs => rfl
    | succ s =>
      have hs : s + 1 < rest.length := by simpa using ht
      have h := viterbiTail_chain log2F rest r0
        ((r0.map (fun c => ((some (1 - c.probability) : Option ℚ), 0))).map Prod.fst)
        s hs
      simpa [viterbiTable, latRow] using h

theorem tableRow_length (log2F : ℚ → ℚ) (lattice : List (List Candidate)) :
    ∀ t, t < lattice.length →
      ((viterbiTable log2F lattice).getD t []).length = (latRow lattice t).length := by
  intro t ht
  cases lattice with
  | nil => simp at ht
  | cons r0 rest =>
    cases t with
    | zero =>
      rw [viterbiTable_zero]
      simp [latRow]
    | succ s =>
      rw [viterbiTable_succ log2F _ s ht, viterbiRow_length]

/-- The finite values behind `totalPathCosts` when every previous cost is
finite. -/
def totalsQ (log2F : ℚ → ℚ) (prevCands : List Candidate) (prevVals : List ℚ)
    (curr : Candidate) : List ℚ :=
  (prevCands.zip prevVals).map (fun pc =>
    pc.2 + transCost log2F pc.1 curr + (1 - curr.probability))

theorem totalPathCosts_map_some (log2F : ℚ → ℚ) (pc : List Candidate)
    (vals : List ℚ) (curr : Candidate) :
    totalPathCosts log2F pc (vals.map some) curr =
      (totalsQ log2F pc vals curr).map some := by
  unfold totalPathCosts totalsQ
  rw [List.zip_map_right]
  simp [List.map_map, Function.comp]

theorem totalsQ_length (log2F : ℚ → ℚ) (pc : List Candidate) (vals : List ℚ)
    (curr : Candidate) :
    (totalsQ log2F pc vals curr).length = min pc.length vals.length := by
  simp [totalsQ]

theorem totalsQ_getD (log2F : ℚ → ℚ) (pc : List Candidate) (vals : List ℚ)
    (curr : Candidate) (j : ℕ) (hj : j < pc.length) (hj2 : j < vals.length) :
    (totalsQ log2F pc vals curr).getD j 0 =
      vals.getD j 0 + transCost log2F (pc.getD j ⟨0, 0, 0⟩) curr +
        (1 - curr.probability) := by
  unfold totalsQ
  rw [List.getD_eq_getElem _ _ (by simp [List.length_zip]; omega)]
  rw [List.getElem_map, List.getElem_zip]
  rw [List.getD_eq_getElem _ _ hj, List.getD_eq_getElem _ _ hj2]

theorem viterbi_row_vals (log2F : ℚ → ℚ) (lattice : List (List Candidate))
    (hne : ∀ r ∈ lattice, r ≠ []) :
    ∀ t, t < lattice.length →
      ∃ vals : List ℚ,
        ((viterbiTable log2F lattice).getD t []).map Prod.fst = vals.map some := by
  intro t
  induction t with
  | zero =>
    intro ht
    cases lattice with
    | nil => simp at ht
    | cons r0 rest =>
      refine ⟨r0.map (fun c => 1 - c.probability), ?_⟩
      rw [viterbiTable_zero]
      simp [List.map_map, Function.comp]
  | succ s ih =>
    intro ht
    obtain ⟨vals, hv⟩ := ih (by omega)
    have hrowlen : ((viterbiTable log2F lattice).getD s []).length
        = (latRow lattice s).length := tableRow_length log2F lattice s (by omega)
    have hvalslen : vals.length = (latRow lattice s).length := by
      have hl := congrArg List.length hv
      simp only [List.length_map] at hl
      omega
    have hprev_mem : latRow lattice s ∈ lattice := by
      rw [latRow, List.getD_eq_getElem _ _ (by omega)]
      exact List.getElem_mem _
    have hprev_ne : latRow lattice s ≠ [] := hne _ hprev_mem
    rw [viterbiTable_succ log2F lattice s ht, hv]
    refine ⟨(latRow lattice (s + 1)).map (fun curr =>
      ((pickMin (totalPathCosts log2F (latRow lattice s) (vals.map some) curr)).1).getD 0),
      ?_⟩
    unfold viterbiRow
    rw [List.map_map, List.map_map]
    apply List.map_congr_left
    intro curr _
    have hQlen : (totalsQ log2F (latRow lattice s) vals curr).length ≠ 0 := by
      rw [totalsQ_length, hvalslen]
      have hne0 : (latRow lattice s).length ≠ 0 := by
        simpa [List.length_eq_zero] using hprev_ne
      omega
    have hQne : totalsQ log2F (latRow lattice s) vals curr ≠ [] := by
      intro hcon
      rw [hcon] at hQlen
      simp at hQlen
    obtain ⟨m, i, heq, _, _, _, _⟩ := pickMin_spec _ hQne
    simp only [Function.comp, totalPathCosts_map_some, heq]
    rfl

theorem costAt_eq_some (log2F : ℚ → ℚ) (lattice : List (List Candidate))
    (hne : ∀ r ∈ lattice, r ≠ []) (t k : ℕ) (ht : t < lattice.length)
    (hk : k < (latRow lattice t).length) :
    costAt log2F lattice t k = some (costValAt log2F lattice t k) := by
  obtain ⟨vals, hv⟩ := viterbi_row_vals log2F lattice hne t ht
  have hrowlen : ((viterbiTable log2F lattice).getD t []).length
      = (latRow lattice t).length := tableRow_length log2F lattice t ht
  have hklen : k < ((viterbiTable log2F lattice).getD t []).length := by omega
  have hvalslen : vals.length = (latRow lattice t).length := by
    have hl := congrArg List.length hv
    simp only [List.length_map] at hl
    omega
  have hkv : k < vals.length := by rw [hvalslen]; exact hk
  have hklen2 : k < (((viterbiTable log2F lattice).getD t []).map Prod.fst).length := by
    rw [List.length_map]; exact hklen
  have h1 : costAt log2F lattice t k =
      (((viterbiTable log2F lattice).getD t []).map Prod.fst).getD k none := by
    unfold costAt
    rw [List.getD_eq_getElem _ _ hklen, List.getD_eq_getElem _ _ hklen2]
    simp
  have h2 : costAt log2F lattice t k = some (vals.getD k 0) := by
    rw [h1, hv]
    rw [List.getD_eq_getElem _ _ (by rw [List.length_map]; exact hkv)]
    rw [List.getD_eq_getElem _ _ hkv]
    simp
  have h3 : costValAt log2F lattice t k = vals.getD k 0 := by
    unfold costValAt
    rw [h2]
    rfl
  rw [h2, h3]

theorem backtrackRev_length : ∀ (prs : List (List ℕ)) (b : ℕ),
    (backtrackRev prs b).length = prs.length + 1 := by
  intro prs
  induction prs with
  | nil => intro b; rfl
  | cons pr rest ih =>
    intro b
    simp only [backtrackRev, List.length_cons, ih]

theorem backtrackRev_head : ∀ (prs : List (List ℕ)) (b : ℕ),
    (backtrackRev prs b).getD 0 0 = b := by
  intro prs b
  cases prs <;> rfl

theorem backtrackRev_succ : ∀ (prs : List (List ℕ)) (b : ℕ) (i : ℕ),
    i < prs.length →
    (backtrackRev prs b).getD (i + 1) 0 =
      (prs.getD i []).getD ((backtrackRev prs b).getD i 0) 0 := by
  intro prs
  induction prs with
  | nil => intro b i hi; simp at hi
  | cons pr rest ih =>
    intro b i hi
    cases i with
    | zero =>
      show (backtrackRev rest (pr.getD b 0)).getD 0 0 = pr.getD b 0
      exact backtrackRev_head rest (pr.getD b 0)
    | succ j =>
      have hj : j < rest.length := by simpa using hi
      show (backtrackRev rest (pr.getD b 0)).getD (j + 1) 0 = _
      rw [ih (pr.getD b 0) j hj]
      rfl

theorem getD_reverse (l : List α) (d : α) (t : ℕ) (ht : t < l.length) :
    l.reverse.getD t d = l.getD (l.length - 1 - t) d := by
  rw [List.getD_eq_getElem _ _ (by simpa using ht),
    List.getD_eq_getElem _ _ (by omega)]
  rw [List.getElem_reverse]

theorem getD_drop_one (l : List α) (d : α) (t : ℕ) :
    (l.drop 1).getD t d = l.getD (t + 1) d := by
  by_cases ht : t < (l.drop 1).length
  · rw [List.getD_eq_getElem _ _ ht,
      List.getD_eq_getElem _ _ (by simp at ht ⊢; omega)]
    rw [List.getElem_drop]
    congr 1
    omega
  · rw [List.getD_eq_default _ _ (by omega),
      List.getD_eq_default _ _ (by simp at ht; omega)]

theorem pathRows_getD (log2F : ℚ → ℚ) (lattice : List (List Candidate)) (u : ℕ) :
    (((viterbiTable log2F lattice).map (fun row => row.map Prod.snd)).getD u []) =
      ((viterbiTable log2F lattice).getD u []).map Prod.snd := by
  by_cases hu : u < (viterbiTable log2F lattice).length
  · rw [List.getD_eq_getElem _ _ (by simpa using hu),
      List.getD_eq_getElem _ _ hu, List.getElem_map]
  · rw [List.getD_eq_default _ _ (by simpa using hu),
      List.getD_eq_default _ _ (by omega)]
    rfl

theorem getD_map_snd (row : List (Option ℚ × ℕ)) (s : ℕ) :
    (row.map Prod.snd).getD s 0 = (row.getD s ((none : Option ℚ), 0)).2 := by
  by_cases hs : s < row.length
  · rw [List.getD_eq_getElem _ _ (by simpa using hs),
      List.getD_eq_getElem _ _ hs, List.getElem_map]
  · rw [List.getD_eq_default _ _ (by simpa using hs),
      List.getD_eq_default _ _ (by omega)]

theorem selIndices_length (log2F : ℚ → ℚ) (lattice : List (List Candidate))
    (hT : lattice ≠ []) :
    (selIndices log2F lattice).length = lattice.length := by
  have hT0 : lattice.length ≠ 0 := by simpa [List.length_eq_zero] using hT
  unfold selIndices
  rw [List.length_reverse, backtrackRev_length]
  simp only [List.length_reverse, List.length_drop, List.length_map,
    viterbiTable_length]
  omega

theorem selIndices_last (log2F : ℚ → ℚ) (lattice : List (List Candidate))
    (hT : lattice ≠ []) :
    (selIndices log2F lattice).getD (lattice.length - 1) 0 =
      (pickMin (((viterbiTable log2F lattice).getLast?.getD []).map Prod.fst)).2 := by
  have hT0 : lattice.length ≠ 0 := by simpa [List.length_eq_zero] using hT
  unfold selIndices
  have hlen : (backtrackRev
      ((((viterbiTable log2F lattice).map (fun row => row.map Prod.snd)).drop 1).reverse)
      ((pickMin (((viterbiTable log2F lattice).getLast?.getD []).map Prod.fst)).2)).length
      = lattice.length := by
    rw [backtrackRev_length]
    simp only [List.length_reverse, List.length_drop, List.length_map,
      viterbiTable_length]
    omega
  rw [getD_reverse _ _ _ (by rw [hlen]; omega)]
  rw [hlen]
  rw [show lattice.length - 1 - (lattice.length - 1) = 0 by omega]
  exact backtrackRev_head _ _

theorem selIndices_chain (log2F : ℚ → ℚ) (lattice : List (List Candidate))
    (hT : lattice ≠ []) :
    ∀ t, t + 1 < lattice.length →
      (selIndices log2F lattice).getD t 0 =
        pathAt log2F lattice (t + 1) ((selIndices log2F lattice).getD (t + 1) 0) := by
  intro t ht
  have hT0 : lattice.length ≠ 0 := by simpa [List.length_eq_zero] using hT
  set T := lattice.length with hTdef
  set pathRows := (viterbiTable log2F lattice).map (fun row => row.map Prod.snd)
    with hPR
  set b := (pickMin (((viterbiTable log2F lattice).getLast?.getD []).map Prod.fst)).2
    with hb
  set revPaths := (pathRows.drop 1).reverse with hRP
  have hPRlen : pathRows.length = T := by
    rw [hPR, List.length_map, viterbiTable_length]
  have hRPlen : revPaths.length = T - 1 := by
    rw [hRP, List.length_reverse, List.length_drop, hPRlen]
  have hrevlen : (backtrackRev revPaths b).length = T := by
    rw [backtrackRev_length, hRPlen]
    omega
  have hsel : selIndices log2F lattice = (backtrackRev revPaths b).reverse := rfl
  have hidx : ∀ s, s < T → (selIndices log2F lattice).getD s 0 =
      (backtrackRev revPaths b).getD (T - 1 - s) 0 := by
    intro s hs
    rw [hsel, getD_reverse _ _ _ (by rw [hrevlen]; omega), hrevlen]
  have hi : T - 1 - t = (T - 2 - t) + 1 := by omega
  rw [hidx t (by omega), hidx (t + 1) (by omega), hi]
  rw [backtrackRev_succ _ _ _ (by rw [hRPlen]; omega)]
  have hRPlen2 : (List.drop 1 pathRows).length = T - 1 := by
    rw [List.length_drop, hPRlen]
  have h1 : revPaths.getD (T - 2 - t) [] = pathRows.getD (t + 1) [] := by
    rw [hRP]
    rw [getD_reverse _ _ _ (by rw [hRPlen2]; omega)]
    rw [hRPlen2, getD_drop_one]
    congr 1
    omega
  have h2 : T - 1 - (t + 1) = T - 2 - t := by omega
  rw [h1, h2, hPR, pathRows_getD, getD_map_snd]
  rfl

theorem costValAt_of_vals (log2F : ℚ → ℚ) (lattice : List (List Candidate))
    (t k : ℕ) (vals : List ℚ) (ht : t < lattice.length)
    (hv : ((viterbiTable log2F lattice).getD t []).map Prod.fst = vals.map some)
    (hk : k < (latRow lattice t).length) :
    costValAt log2F lattice t k = vals.getD k 0 ∧
      costAt log2F lattice t k = some (vals.getD k 0) := by
  have hrowlen : ((viterbiTable log2F lattice).getD t []).length
      = (latRow lattice t).length := tableRow_length log2F lattice t ht
  have hklen : k < ((viterbiTable log2F lattice).getD t []).length := by omega
  have hvalslen : vals.length = (latRow lattice t).length := by
    have hl := congrArg List.length hv
    simp only [List.length_map] at hl
    omega
  have hkv : k < vals.length := by omega
  have hklen2 : k < (((viterbiTable log2F lattice).getD t []).map Prod.fst).length := by
    rw [List.length_map]; exact hklen
  have h1 : costAt log2F lattice t k =
      (((viterbiTable log2F lattice).getD t []).map Prod.fst).getD k none := by
    unfold costAt
    rw [List.getD_eq_getElem _ _ hklen, List.getD_eq_getElem _ _ hklen2]
    simp
  have h2 : costAt log2F lattice t k = some (vals.getD k 0) := by
    rw [h1, hv]
    rw [List.getD_eq_getElem _ _ (by rw [List.length_map]; exact hkv)]
    rw [List.getD_eq_getElem _ _ hkv]
    simp
  refine ⟨?_, h2⟩
  unfold costValAt
  rw [h2]
  rfl

theorem frameCandidates_ne (sqrtF : ℚ → ℚ) (sampleRate threshold rmsThreshold : ℚ)
    (isDeepSearch : Bool) (chunk : List ℚ) :
    frameCandidates sqrtF sampleRate threshold rmsThreshold isDeepSearch chunk ≠ [] := by
  unfold frameCandidates
  by_cases h : rmsOf sqrtF chunk < rmsThreshold
  · simp [h]
  · simp [h]

theorem extractCandidates_rows_ne (sqrtF : ℚ → ℚ) (data : List ℚ)
    (sampleRate threshold rmsThreshold : ℚ) :
    ∀ r ∈ extractCandidates sqrtF data sampleRate threshold rmsThreshold,
      r ≠ [] := by
  intro r hr
  unfold extractCandidates at hr
  simp only [List.mem_map, List.mem_range] at hr
  obtain ⟨i, _, hi⟩ := hr
  rw [← hi]
  exact frameCandidates_ne _ _ _ _ _ _

theorem viterbi_initial (log2F : ℚ → ℚ) (lattice : List (List Candidate))
    (k : ℕ) (hk : k < (latRow lattice 0).length) :
    costAt log2F lattice 0 k = some (1 - (latCand lattice 0 k).probability) := by
  cases lattice with
  | nil => simp [latRow] at hk
  | cons r0 rest =>
    have hk0 : k < r0.length := by simpa [latRow] using hk
    unfold costAt
    rw [viterbiTable_zero]
    rw [List.getD_eq_getElem _ _ (by rw [List.length_map]; exact hk0)]
    rw [List.getElem_map]
    simp only [latCand, latRow]
    rw [show ((r0 :: rest).getD 0 []) = r0 from rfl]
    rw [List.getD_eq_getElem _ _ hk0]

theorem viterbi_recurrence (log2F : ℚ → ℚ) (lattice : List (List Candidate))
    (hne : ∀ r ∈ lattice, r ≠ []) (t : ℕ) (ht : t + 1 < lattice.length)
    (k : ℕ) (hk : k < (latRow lattice (t + 1)).length) :
    ∃ m : ℚ, costAt log2F lattice (t + 1) k = some m ∧
      pathAt log2F lattice (t + 1) k < (latRow lattice t).length ∧
      stepCost log2F lattice t (pathAt log2F lattice (t + 1) k) k = m ∧
      (∀ j, j < (latRow lattice t).length → m ≤ stepCost log2F lattice t j k) ∧
      (∀ j, j < pathAt log2F lattice (t + 1) k → m < stepCost log2F lattice t j k) := by
  obtain ⟨vals, hv⟩ := viterbi_row_vals log2F lattice hne t (by omega)
  have hvalslen : vals.length = (latRow lattice t).length := by
    have hl := congrArg List.length hv
    have hrowlen := tableRow_length log2F lattice t (by omega)
    simp only [List.length_map] at hl
    omega
  have hprev_mem : latRow lattice t ∈ lattice := by
    rw [latRow, List.getD_eq_getElem _ _ (by omega)]
    exact List.getElem_mem _
  have hprev_ne : (latRow lattice t).length ≠ 0 := by
    simpa [List.length_eq_zero] using hne _ hprev_mem
  set curr := latCand lattice (t + 1) k with hcurr
  have hentry : ((viterbiTable log2F lattice).getD (t + 1) []).getD k (none, 0) =
      pickMin (totalPathCosts log2F (latRow lattice t) (vals.map some) curr) := by
    rw [viterbiTable_succ log2F lattice t ht, hv]
    unfold viterbiRow
    rw [List.getD_eq_getElem _ _ (by rw [List.length_map]; exact hk)]
    rw [List.getElem_map]
    rw [hcurr]
    unfold latCand
    rw [List.getD_eq_getElem _ _ hk]
  have hQne : totalsQ log2F (latRow lattice t) vals curr ≠ [] := by
    have hQlen : (totalsQ log2F (latRow lattice t) vals curr).length ≠ 0 := by
      rw [totalsQ_length, hvalslen]
      omega
    intro hcon
    rw [hcon] at hQlen
    simp at hQlen
  obtain ⟨m, i, heq, hilen, hival, hmin, hfirst⟩ := pickMin_spec _ hQne
  have hQlen : (totalsQ log2F (latRow lattice t) vals curr).length =
      (latRow lattice t).length := by
    rw [totalsQ_length, hvalslen]
    omega
  have hQgetD : ∀ j, j < (latRow lattice t).length →
      (totalsQ log2F (latRow lattice t) vals curr).getD j 0 =
        stepCost log2F lattice t j k := by
    intro j hj
    rw [totalsQ_getD log2F _ _ _ j hj (by omega)]
    unfold stepCost
    have := (costValAt_of_vals log2F lattice t j vals (by omega) hv hj).1
    rw [this]
    rfl
  have hAt : costAt log2F lattice (t + 1) k = some m ∧
      pathAt log2F lattice (t + 1) k = i := by
    constructor
    · unfold costAt
      rw [hentry, totalPathCosts_map_some, heq]
    · unfold pathAt
      rw [hentry, totalPathCosts_map_some, heq]
  refine ⟨m, hAt.1, ?_, ?_, ?_, ?_⟩
  · rw [hAt.2]; omega
  · rw [hAt.2, ← hQgetD i (by omega)]
    exact hival
  · intro j hj
    rw [← hQgetD j hj]
    exact hmin j (by omega)
  · intro j hj
    rw [hAt.2] at hj
    rw [← hQgetD j (by omega)]
    exact hfirst j hj

theorem getLast?_getD (l : List (List (Option ℚ × ℕ))) :
    l.getLast?.getD [] = l.getD (l.length - 1) [] := by
  cases l with
  | nil => rfl
  | cons x xs =>
    rw [List.getLast?_eq_getElem?, List.getD_eq_getElem?_getD]

theorem selIndices_argmin (log2F : ℚ → ℚ) (lattice : List (List Candidate))
    (hne : ∀ r ∈ lattice, r ≠ []) (hT : lattice ≠ []) :
    (selIndices log2F lattice).getD (lattice.length - 1) 0 <
      (latRow lattice (lattice.length - 1)).length ∧
    (∀ k, k < (latRow lattice (lattice.length - 1)).length →
      costValAt log2F lattice (lattice.length - 1)
          ((selIndices log2F lattice).getD (lattice.length - 1) 0) ≤
        costValAt log2F lattice (lattice.length - 1) k) ∧
    (∀ k, k < (selIndices log2F lattice).getD (lattice.length - 1) 0 →
      costValAt log2F lattice (lattice.length - 1)
          ((selIndices log2F lattice).getD (lattice.length - 1) 0) <
        costValAt log2F lattice (lattice.length - 1) k) := by
  have hT0 : lattice.length ≠ 0 := by simpa [List.length_eq_zero] using hT
  obtain ⟨vals, hv⟩ :=
    viterbi_row_vals log2F lattice hne (lattice.length - 1) (by omega)
  have hvalslen : vals.length = (latRow lattice (lattice.length - 1)).length := by
    have hl := congrArg List.length hv
    have hrowlen := tableRow_length log2F lattice (lattice.length - 1) (by omega)
    simp only [List.length_map] at hl
    omega
  have hrow_mem : latRow lattice (lattice.length - 1) ∈ lattice := by
    rw [latRow, List.getD_eq_getElem _ _ (by omega)]
    exact List.getElem_mem _
  have hrow_ne : (latRow lattice (lattice.length - 1)).length ≠ 0 := by
    simpa [List.length_eq_zero] using hne _ hrow_mem
  have hvne : vals ≠ [] := by
    intro hcon
    rw [hcon] at hvalslen
    simp at hvalslen
    omega
  have hlast : (viterbiTable log2F lattice).getLast?.getD [] =
      (viterbiTable log2F lattice).getD (lattice.length - 1) [] := by
    rw [getLast?_getD, viterbiTable_length]
  have hb := selIndices_last log2F lattice hT
  rw [hlast, hv] at hb
  obtain ⟨m, i, heq, hilen, hival, hmin, hfirst⟩ := pickMin_spec vals hvne
  rw [heq] at hb
  have hcv : ∀ k, k < (latRow lattice (lattice.length - 1)).length →
      costValAt log2F lattice (lattice.length - 1) k = vals.getD k 0 :=
    fun k hk =>
      (costValAt_of_vals log2F lattice (lattice.length - 1) k vals (by omega) hv hk).1
  refine ⟨by rw [hb]; omega, ?_, ?_⟩
  · intro k hk
    rw [hb, hcv i (by omega), hcv k hk, hival]
    exact hmin k (by omega)
  · intro k hk
    rw [hb] at hk
    rw [hb, hcv i (by omega), hcv k (by omega), hival]
    exact hfirst k hk

theorem decodeFrames_getD (sampleRate : ℚ) (lattice : List (List Candidate))
    (sel : List ℕ) (t : ℕ) (ht : t < lattice.length) :
    (decodeFrames sampleRate lattice sel).getD t ⟨0, 0, 0, false, []⟩ =
      { timestamp := (t : ℚ) * (step : ℚ) / sampleRate
        frequency := (latCand lattice t (sel.getD t 0)).frequency
        probability := (latCand lattice t (sel.getD t 0)).probability
        hasPitch := decide (0 < (latCand lattice t (sel.getD t 0)).frequency)
        candidates := ((latRow lattice t).filter
          (fun c => decide (0 < c.frequency))).map
            (fun c => ⟨c.frequency, c.probability⟩) } := by
  unfold decodeFrames
  rw [List.getD_eq_getElem _ _ (by simpa using ht)]
  rw [List.getElem_map, List.getElem_range]
  rfl

/-- **C1.** For every candidate lattice produced by extraction (each frame
has a non-empty candidate list) the Viterbi stage computes: initial costs
`cost[0][k] = 1 - p(k)`; transition costs `|log2(curr.f/prev.f)| · 1.0`
between voiced candidates, `1.5` between voiced and unvoiced in either
direction, `0` between two unvoiced candidates; the recurrence
`cost[t][k] = min_j (cost[t-1][j] + trans(j,k) + emission(k))` with
emission `1 - p(curr)` and first-argmin back-pointers; and the per-frame
selection is obtained by backtracking from the (first) index with the
lowest final cost `cost[T-1][·]`. -/
theorem viterbi_characterization :
    (∀ (sqrtF : ℚ → ℚ) (data : List ℚ) (sampleRate threshold rmsThreshold : ℚ),
      ∀ r ∈ extractCandidates sqrtF data sampleRate threshold rmsThreshold,
        r ≠ []) ∧
    (∀ (log2F : ℚ → ℚ) (prev curr : Candidate),
      (0 < prev.frequency → 0 < curr.frequency →
        transCost log2F prev curr =
          |log2F (curr.frequency / prev.frequency)| * (1 : ℚ)) ∧
      (prev.frequency = 0 → 0 < curr.frequency →
        transCost log2F prev curr = 3 / 2) ∧
      (0 < prev.frequency → curr.frequency = 0 →
        transCost log2F prev curr = 3 / 2) ∧
      (prev.frequency = 0 → curr.frequency = 0 →
        transCost log2F prev curr = 0)) ∧
    (∀ (log2F : ℚ → ℚ) (lattice : List (List Candidate)),
      (∀ r ∈ lattice, r ≠ []) →
      ∀ k, k < (latRow lattice 0).length →
        costAt log2F lattice 0 k =
          some (1 - (latCand lattice 0 k).probability)) ∧
    (∀ (log2F : ℚ → ℚ) (lattice : List (List Candidate)),
      (∀ r ∈ lattice, r ≠ []) →
      ∀ t, t + 1 < lattice.length →
      ∀ k, k < (latRow lattice (t + 1)).length →
        ∃ m : ℚ, costAt log2F lattice (t + 1) k = some m ∧
          pathAt log2F lattice (t + 1) k < (latRow lattice t).length ∧
          stepCost log2F lattice t (pathAt log2F lattice (t + 1) k) k = m ∧
          (∀ j, j < (latRow lattice t).length →
            m ≤ stepCost log2F lattice t j k) ∧
          (∀ j, j < pathAt log2F lattice (t + 1) k →
            m < stepCost log2F lattice t j k)) ∧
    (∀ (log2F : ℚ → ℚ) (lattice : List (List Candidate)) (sampleRate : ℚ),
      (∀ r ∈ lattice, r ≠ []) → lattice ≠ [] →
      (selIndices log2F lattice).length = lattice.length ∧
      ((selIndices log2F lattice).getD (lattice.length - 1) 0 <
          (latRow lattice (lattice.length - 1)).length ∧
        (∀ k, k < (latRow lattice (lattice.length - 1)).length →
          costValAt log2F lattice (lattice.length - 1)
              ((selIndices log2F lattice).getD (lattice.length - 1) 0) ≤
            costValAt log2F lattice (lattice.length - 1) k) ∧
        (∀ k, k < (selIndices log2F lattice).getD (lattice.length - 1) 0 →
          costValAt log2F lattice (lattice.length - 1)
              ((selIndices log2F lattice).getD (lattice.length - 1) 0) <
            costValAt log2F lattice (lattice.length - 1) k)) ∧
      (∀ t, t + 1 < lattice.length →
        (selIndices log2F lattice).getD t 0 =
          pathAt log2F lattice (t + 1)
            ((selIndices log2F lattice).getD (t + 1) 0)) ∧
      (∀ t, t < lattice.length →
        (decodeFrames sampleRate lattice (selIndices log2F lattice)).getD t
            ⟨0, 0, 0, false, []⟩ =
          { timestamp := (t : ℚ) * (step : ℚ) / sampleRate
            frequency :=
              (latCand lattice t ((selIndices log2F lattice).getD t 0)).frequency
            probability :=
              (latCand lattice t ((selIndices log2F lattice).getD t 0)).probability
            hasPitch := decide
              (0 < (latCand lattice t ((selIndices log2F lattice).getD t 0)).frequency)
            candidates := ((latRow lattice t).filter
              (fun c => decide (0 < c.frequency))).map
                (fun c => ⟨c.frequency, c.probability⟩) })) := by
  refine ⟨extractCandidates_rows_ne, ?_, ?_, ?_, ?_⟩
  · intro log2F prev curr
    refine ⟨?_, ?_, ?_, ?_⟩
    · intro h1 h2
      unfold transCost
      rw [if_pos ⟨h1, h2⟩]
      rfl
    · intro h1 h2
      unfold transCost
      rw [if_neg (by rw [h1]; simp)]
      rw [if_pos (by rw [h1]; exact (ne_of_lt h2))]
      rfl
    · intro h1 h2
      unfold transCost
      rw [if_neg (by rw [h2]; simp)]
      rw [if_pos (by rw [h2]; exact (ne_of_gt h1))]
      rfl
    · intro h1 h2
      unfold transCost
      rw [if_neg (by rw [h1]; simp)]
      rw [if_neg (by rw [h1, h2]; simp)]
  · intro log2F lattice _ k hk
    exact viterbi_initial log2F lattice k hk
  · intro log2F lattice hne t ht k hk
    exact viterbi_recurrence log2F lattice hne t ht k hk
  · intro log2F lattice sampleRate hne hT
    exact ⟨selIndices_length log2F lattice hT,
      selIndices_argmin log2F lattice hne hT,
      selIndices_chain log2F lattice hT,
      fun t ht => decodeFrames_getD sampleRate lattice (selIndices log2F lattice) t ht⟩

/-- Witness for C1 on the concrete two-frame lattice
`[[{0, 1/2, 1/2}], [{100, 1/3, 2/3}, {0, 1/4, 3/4}]]`: the initial cost,
the recurrence at `t = 1`, `k = 0`, and the selection length. -/
theorem viterbi_characterization_witness :
    (∀ r ∈ [[(⟨0, 1/2, 1/2⟩ : Candidate)],
        [(⟨100, 1/3, 2/3⟩ : Candidate), ⟨0, 1/4, 3/4⟩]], r ≠ []) ∧
    costAt (fun _ => 0)
        [[(⟨0, 1/2, 1/2⟩ : Candidate)], [(⟨100, 1/3, 2/3⟩ : Candidate), ⟨0, 1/4, 3/4⟩]]
        0 0 =
      some (1 - (latCand
        [[(⟨0, 1/2, 1/2⟩ : Candidate)], [(⟨100, 1/3, 2/3⟩ : Candidate), ⟨0, 1/4, 3/4⟩]]
        0 0).probability) ∧
    (∃ m : ℚ,
      costAt (fun _ => 0)
          [[(⟨0, 1/2, 1/2⟩ : Candidate)], [(⟨100, 1/3, 2/3⟩ : Candidate), ⟨0, 1/4, 3/4⟩]]
          1 0 = some m ∧
        pathAt (fun _ => 0)
            [[(⟨0, 1/2, 1/2⟩ : Candidate)], [(⟨100, 1/3, 2/3⟩ : Candidate), ⟨0, 1/4, 3/4⟩]]
            1 0 <
          (latRow
            [[(⟨0, 1/2, 1/2⟩ : Candidate)], [(⟨100, 1/3, 2/3⟩ : Candidate), ⟨0, 1/4, 3/4⟩]]
            0).length ∧
        stepCost (fun _ => 0)
            [[(⟨0, 1/2, 1/2⟩ : Candidate)], [(⟨100, 1/3, 2/3⟩ : Candidate), ⟨0, 1/4, 3/4⟩]]
            0 (pathAt (fun _ => 0)
              [[(⟨0, 1/2, 1/2⟩ : Candidate)], [(⟨100, 1/3, 2/3⟩ : Candidate), ⟨0, 1/4, 3/4⟩]]
              1 0) 0 = m ∧
        (∀ j, j < (latRow
            [[(⟨0, 1/2, 1/2⟩ : Candidate)], [(⟨100, 1/3, 2/3⟩ : Candidate), ⟨0, 1/4, 3/4⟩]]
            0).length →
          m ≤ stepCost (fun _ => 0)
            [[(⟨0, 1/2, 1/2⟩ : Candidate)], [(⟨100, 1/3, 2/3⟩ : Candidate), ⟨0, 1/4, 3/4⟩]]
            0 j 0) ∧
        (∀ j, j < pathAt (fun _ => 0)
            [[(⟨0, 1/2, 1/2⟩ : Candidate)], [(⟨100, 1/3, 2/3⟩ : Candidate), ⟨0, 1/4, 3/4⟩]]
            1 0 →
          m < stepCost (fun _ => 0)
            [[(⟨0, 1/2, 1/2⟩ : Candidate)], [(⟨100, 1/3, 2/3⟩ : Candidate), ⟨0, 1/4, 3/4⟩]]
            0 j 0)) ∧
    (selIndices (fun _ => 0)
        [[(⟨0, 1/2, 1/2⟩ : Candidate)], [(⟨100, 1/3, 2/3⟩ : Candidate), ⟨0, 1/4, 3/4⟩]]).length =
      ([[(⟨0, 1/2, 1/2⟩ : Candidate)],
        [(⟨100, 1/3, 2/3⟩ : Candidate), ⟨0, 1/4, 3/4⟩]] : List (List Candidate)).length := by
  refine ⟨by simp, ?_, ?_, ?_⟩
  · exact viterbi_characterization.2.2.1 (fun _ => 0) _ (by simp) 0 (by simp [latRow])
  · exact viterbi_characterization.2.2.2.1 (fun _ => 0) _ (by simp) 0 (by simp) 0
      (by simp [latRow])
  · exact (viterbi_characterization.2.2.2.2 (fun _ => 0) _ 44100 (by simp)
      (by simp)).1

theorem decodeFrames_unvoiced (sampleRate : ℚ) (lattice : List (List Candidate))
    (sel : List ℕ) (hz : ∀ r ∈ lattice, ∀ c ∈ r, c.frequency = 0) :
    ∀ f ∈ decodeFrames sampleRate lattice sel,
      f.frequency = 0 ∧ f.hasPitch = false := by
  intro f hf
  unfold decodeFrames at hf
  simp only [List.mem_map, List.mem_range] at hf
  obtain ⟨t, ht, rfl⟩ := hf
  have hrow : latRow lattice t ∈ lattice := by
    rw [latRow, List.getD_eq_getElem _ _ ht]
    exact List.getElem_mem _
  have hfreq : ((latRow lattice t).getD (sel.getD t 0) ⟨0, 0, 0⟩).frequency = 0 := by
    by_cases hidx : sel.getD t 0 < (latRow lattice t).length
    · rw [List.getD_eq_getElem _ _ hidx]
      exact hz _ hrow _ (List.getElem_mem _)
    · rw [List.getD_eq_default _ _ (by omega)]
  refine ⟨?_, ?_⟩
  · simpa [latRow] using hfreq
  · have : ¬ (0 < ((lattice.getD t []).getD (sel.getD t 0) ⟨0, 0, 0⟩).frequency) := by
      rw [show ((lattice.getD t []).getD (sel.getD t 0) ⟨0, 0, 0⟩).frequency =
        ((latRow lattice t).getD (sel.getD t 0) ⟨0, 0, 0⟩).frequency from rfl, hfreq]
      simp
    simpa using this

theorem despeckleLoop_frames_from (minRun : ℕ) :
    ∀ (frames run : List PitchFrame),
      ∀ g ∈ despeckleLoop minRun run frames,
        ∃ f ∈ run ++ frames, g = f ∨ g = zeroFrame f := by
  intro frames
  induction frames with
  | nil =>
    intro run g hg
    unfold despeckleLoop at hg
    by_cases hlen : run.length < minRun
    · rw [if_pos hlen] at hg
      obtain ⟨f, hf, rfl⟩ := List.mem_map.mp hg
      exact ⟨f, by simpa using hf, Or.inr rfl⟩
    · rw [if_neg hlen] at hg
      exact ⟨g, by simpa using hg, Or.inl rfl⟩
  | cons f0 fs ih =>
    intro run g hg
    unfold despeckleLoop at hg
    by_cases hp : f0.hasPitch = true
    · rw [if_pos hp] at hg
      obtain ⟨f, hf, hor⟩ := ih (run ++ [f0]) g hg
      refine ⟨f, ?_, hor⟩
      simp only [List.append_assoc, List.singleton_append] at hf
      exact hf
    · rw [if_neg hp] at hg
      rw [List.mem_append] at hg
      rcases hg with hg | hg
      · by_cases hlen : run.length < minRun
        · rw [if_pos hlen] at hg
          obtain ⟨f, hf, rfl⟩ := List.mem_map.mp hg
          exact ⟨f, by simp [hf], Or.inr rfl⟩
        · rw [if_neg hlen] at hg
          exact ⟨g, by simp [hg], Or.inl rfl⟩
      · rw [List.mem_cons] at hg
        rcases hg with rfl | hg
        · exact ⟨g, by simp, Or.inl rfl⟩
        · obtain ⟨f, hf, hor⟩ := ih [] g hg
          simp only [List.nil_append] at hf
          exact ⟨f, by simp [hf], hor⟩

theorem despeckle_unvoiced (minRun : ℕ) (frames : List PitchFrame)
    (h : ∀ f ∈ frames, f.frequency = 0 ∧ f.hasPitch = false) :
    ∀ g ∈ despeckle minRun frames, g.frequency = 0 ∧ g.hasPitch = false := by
  intro g hg
  obtain ⟨f, hf, hor⟩ := despeckleLoop_frames_from minRun frames [] g hg
  simp only [List.nil_append] at hf
  rcases hor with h1 | h1
  · rw [h1]; exact h f hf
  · rw [h1]; exact ⟨rfl, rfl⟩

/-- **C4.** If the RMS of every analysis frame is strictly below
`rmsThreshold`, the RMS gate emits exactly the single candidate
`{0, 0.99, 0.01}` for every frame — the extracted lattice is
`replicate numFrames [{0, 0.99, 0.01}]`, the YIN computation for the frame
being skipped by that branch — and every frame of the returned `PitchTrack`
is unvoiced (`frequency = 0`, `hasPitch = false`). -/
theorem rms_gate_characterization (sqrtF log2F : ℚ → ℚ) (data : List ℚ)
    (sampleRate : ℚ) (params : PyinParams)
    (hrms : ∀ i,
      i < (Int.fdiv ((data.length : ℤ) - (bufferSize : ℤ)) (step : ℤ)).toNat →
      rmsOf sqrtF ((data.drop (i * step)).take bufferSize) <
        params.rmsThreshold.getD defaultRmsThreshold) :
    extractCandidates sqrtF data sampleRate
        (params.threshold.getD defaultThreshold)
        (params.rmsThreshold.getD defaultRmsThreshold) =
      List.replicate
        (Int.fdiv ((data.length : ℤ) - (bufferSize : ℤ)) (step : ℤ)).toNat
        [⟨0, 99/100, 1/100⟩] ∧
    (∀ f ∈ runPyin sqrtF log2F data sampleRate params,
      f.frequency = 0 ∧ f.hasPitch = false) := by
  have hext : extractCandidates sqrtF data sampleRate
      (params.threshold.getD defaultThreshold)
      (params.rmsThreshold.getD defaultRmsThreshold) =
      List.replicate
        (Int.fdiv ((data.length : ℤ) - (bufferSize : ℤ)) (step : ℤ)).toNat
        [⟨0, 99/100, 1/100⟩] := by
    unfold extractCandidates
    rw [List.eq_replicate_iff]
    constructor
    · simp
    · intro b hb
      simp only [List.mem_map, List.mem_range] at hb
      obtain ⟨i, hi, rfl⟩ := hb
      unfold frameCandidates
      rw [if_pos (hrms i hi)]
  refine ⟨hext, ?_⟩
  intro f hf
  simp only [runPyin] at hf
  rw [hext] at hf
  split_ifs at hf with hz hdeep
  · simp at hf
  · refine decodeFrames_unvoiced sampleRate _ _ ?_ f hf
    intro r hr c hc
    rw [List.eq_of_mem_replicate hr] at hc
    simp only [List.mem_singleton] at hc
    rw [hc]
  · refine despeckle_unvoiced _ _ ?_ f hf
    intro g hg
    refine decodeFrames_unvoiced sampleRate _ _ ?_ g hg
    intro r hr c hc
    rw [List.eq_of_mem_replicate hr] at hc
    simp only [List.mem_singleton] at hc
    rw [hc]

/-- Witness for C4: 2560 zero samples (one analysis frame) with `sqrtF`
constantly `0`, default parameters; the single frame is gated and the whole
track is unvoiced. -/
theorem rms_gate_characterization_witness :
    (∀ i, i < (Int.fdiv (((List.replicate 2560 (0:ℚ)).length : ℤ) -
        (bufferSize : ℤ)) (step : ℤ)).toNat →
      rmsOf (fun _ => 0) (((List.replicate 2560 (0:ℚ)).drop (i * step)).take bufferSize) <
        ((⟨none, none⟩ : PyinParams)).rmsThreshold.getD defaultRmsThreshold) ∧
    (extractCandidates (fun _ => 0) (List.replicate 2560 (0:ℚ)) 44100
        (((⟨none, none⟩ : PyinParams)).threshold.getD defaultThreshold)
        (((⟨none, none⟩ : PyinParams)).rmsThreshold.getD defaultRmsThreshold) =
      List.replicate
        (Int.fdiv (((List.replicate 2560 (0:ℚ)).length : ℤ) - (bufferSize : ℤ))
          (step : ℤ)).toNat [⟨0, 99/100, 1/100⟩] ∧
    (∀ f ∈ runPyin (fun _ => 0) (fun _ => 0) (List.replicate 2560 (0:ℚ)) 44100
        ⟨none, none⟩, f.frequency = 0 ∧ f.hasPitch = false)) := by
  have hrms : ∀ i, i < (Int.fdiv (((List.replicate 2560 (0:ℚ)).length : ℤ) -
      (bufferSize : ℤ)) (step : ℤ)).toNat →
      rmsOf (fun _ => 0) (((List.replicate 2560 (0:ℚ)).drop (i * step)).take bufferSize) <
        ((⟨none, none⟩ : PyinParams)).rmsThreshold.getD defaultRmsThreshold := by
    intro i hi
    have h0 : rmsOf (fun _ => (0:ℚ))
        (((List.replicate 2560 (0:ℚ)).drop (i * step)).take bufferSize) = 0 := rfl
    rw [h0]
    norm_num [defaultRmsThreshold]
  exact ⟨hrms, rms_gate_characterization (fun _ => 0) (fun _ => 0)
    (List.replicate 2560 (0:ℚ)) 44100 ⟨none, none⟩ hrms⟩

/-! ## SpectrogramEngine (worker inside src/services/spectrogram.ts)

`cos2piF x` models `Math.cos(2π·x)` and `sin2piF x` models `Math.sin(2π·x)`,
so the Hann factor `cos(2πi/(N-1))` is `cos2piF (i/(N-1))` and the twiddle
base `cos(-2π/len)` is `cos2piF (-1/len)`. -/

/-- The inner `while (k <= i2) { i2 -= k; k /= 2 }` of the bit-reversal
permutation.  `k` and `i2` stay exact rationals as in JavaScript; the fuel
(first argument, instantiated with `n`) strictly exceeds the number of
halvings the loop can perform on any actual input. -/
def bitrevWhile : ℕ → ℚ → ℚ → ℚ × ℚ
  | 0, k, i2 => (k, i2)
  | fuel + 1, k, i2 => if k ≤ i2 then bitrevWhile fuel (k / 2) (i2 - k) else (k, i2)

/-- One iteration of the bit-reversal `for` loop: conditional swap followed
by the reversed-counter update. -/
def bitrevStep (n : ℕ) (st : Array ℚ × Array ℚ × ℚ) (i : ℕ) :
    Array ℚ × Array ℚ × ℚ :=
  let re := st.1
  let im := st.2.1
  let i2 := st.2.2
  let i2n := (⌊i2⌋).toNat
  let re2 := if (i : ℚ) < i2 then
      (re.setD i (re.getD i2n 0)).setD i2n (re.getD i 0) else re
  let im2 := if (i : ℚ) < i2 then
      (im.setD i (im.getD i2n 0)).setD i2n (im.getD i 0) else im
  let ki2 := bitrevWhile n ((n / 2 : ℕ) : ℚ) i2
  (re2, im2, ki2.2 + ki2.1)

/-- The bit-reversal permutation pass of `simpleFFT`. -/
def bitReversal (n : ℕ) (re im : Array ℚ) : Array ℚ × Array ℚ :=
  let st := (List.range' 1 (n - 2)).foldl (bitrevStep n) (re, im, ((n / 2 : ℕ) : ℚ))
  (st.1, st.2.1)

/-- Body of the innermost butterfly loop (`j` loop): one butterfly plus the
twiddle-factor update. -/
def butterflyInner (wRe wIm : ℚ) (i halfLen : ℕ)
    (st : Array ℚ × Array ℚ × ℚ × ℚ) (j : ℕ) : Array ℚ × Array ℚ × ℚ × ℚ :=
  let re := st.1
  let im := st.2.1
  let uRe := st.2.2.1
  let uIm := st.2.2.2
  let evenIndex := i + j
  let oddIndex := i + j + halfLen
  let tRe := uRe * re.getD oddIndex 0 - uIm * im.getD oddIndex 0
  let tIm := uRe * im.getD oddIndex 0 + uIm * re.getD oddIndex 0
  let re2 := (re.setD oddIndex (re.getD evenIndex 0 - tRe)).setD evenIndex
    (re.getD evenIndex 0 + tRe)
  let im2 := (im.setD oddIndex (im.getD evenIndex 0 - tIm)).setD evenIndex
    (im.getD evenIndex 0 + tIm)
  (re2, im2, uRe * wRe - uIm * wIm, uRe * wIm + uIm * wRe)

/-- One pass of the butterfly stage for a fixed block length `len`
(the `i` loop over blocks, with `u` reset to `(1, 0)` per block). -/
def butterflyLen (cos2piF sin2piF : ℚ → ℚ) (n len : ℕ)
    (st : Array ℚ × Array ℚ) : Array ℚ × Array ℚ :=
  let halfLen := len / 2
  let wRe := cos2piF (-(1 : ℚ) / (len : ℚ))
  let wIm := sin2piF (-(1 : ℚ) / (len : ℚ))
  (List.range ((n + len - 1) / len)).foldl (fun s b =>
    let i := b * len
    let inner := (List.range halfLen).foldl (butterflyInner wRe wIm i halfLen)
      (s.1, s.2, 1, 0)
    (inner.1, inner.2.1)) st

/-- `simpleFFT(re, im)`: in-place radix-2 Cooley-Tukey FFT of the worker.
The `len = 2, 4, ..., n` doubling loop is the fold over exponents
`s < log2 n` with `len = 2^(s+1)`, exactly the lengths the source loop
visits. -/
def simpleFFT (cos2piF sin2piF : ℚ → ℚ) (re im : List ℚ) : List ℚ × List ℚ :=
  let n := re.length
  if n ≤ 1 then (re, im)
  else
    let rev := bitReversal n re.toArray im.toArray
    let res := (List.range (Nat.log2 n)).foldl
      (fun st s => butterflyLen cos2piF sin2piF n (2 ^ (s + 1)) st)
      (rev.1, rev.2)
    (res.1.toList, res.2.toList)

/-- `computeSpectrogram(data, sampleRate)` from the spectrogram worker:
Hann-windowed frames of 2048 samples at hop 512, magnitudes of the first
1024 bins, and the running maximum (`sampleRate` is accepted and unused, as
in the source). -/
def computeSpectrogram (sqrtF cos2piF sin2piF : ℚ → ℚ) (data : List ℚ)
    (sampleRate : ℚ) : SpectrogramData :=
  let fftSize : ℕ := 2048
  let hopSize : ℕ := 512
  let windowSize := fftSize
  let numFrames : ℤ := Int.fdiv ((data.length : ℤ) - (windowSize : ℤ)) (hopSize : ℤ)
  let bins := fftSize / 2
  let win := (List.range windowSize).map (fun i =>
    1/2 * (1 - cos2piF ((i : ℚ) / ((windowSize : ℚ) - 1))))
  let magnitudes := (List.range numFrames.toNat).map (fun i =>
    let start := i * hopSize
    let re := (List.range fftSize).map (fun j =>
      if start + j < data.length then data.getD (start + j) 0 * win.getD j 0 else 0)
    let im := (List.range fftSize).map (fun _ => (0 : ℚ))
    let fr := simpleFFT cos2piF sin2piF re im
    (List.range bins).map (fun j =>
      sqrtF (fr.1.getD j 0 * fr.1.getD j 0 + fr.2.getD j 0 * fr.2.getD j 0)))
  { width := numFrames
    height := bins
    magnitude2d := magnitudes
    maxMagnitude := magnitudes.flatten.foldl (fun m x => if x > m then x else m) 0 }

/-- Counterexample for C8 as stated: on empty audio the spectrogram worker
stores `numFrames = Math.floor((0 - 2048)/512) = -4` in `width`, not `0`. -/
theorem empty_audio_spectrogram_width_counterexample :
    (computeSpectrogram (fun _ => 0) (fun _ => 1) (fun _ => 0) [] 44100).width = -4 ∧
    (computeSpectrogram (fun _ => 0) (fun _ => 1) (fun _ => 0) [] 44100).width ≠ 0 := by
  constructor
  · decide
  · decide

/-- **C8 (amended).** On empty audio the pitch engine returns an empty
`PitchTrack`, and the spectrogram engine returns a `SpectrogramData` with an
empty magnitude list and `maxMagnitude = 0` — but with
`width = ⌊(0 - 2048)/512⌋ = -4`, not `0`. -/
theorem empty_audio_characterization :
    (∀ (sqrtF log2F : ℚ → ℚ) (sampleRate : ℚ) (params : PyinParams),
      runPyin sqrtF log2F [] sampleRate params = []) ∧
    (∀ (sqrtF cos2piF sin2piF : ℚ → ℚ) (sampleRate : ℚ),
      computeSpectrogram sqrtF cos2piF sin2piF [] sampleRate =
        ⟨-4, 1024, [], 0⟩) := by
  constructor
  · intro sqrtF log2F sampleRate params
    have h0 : (Int.fdiv ((([] : List ℚ).length : ℤ) - (bufferSize : ℤ))
        (step : ℤ)).toNat = 0 := by decide
    have hL : extractCandidates sqrtF [] sampleRate
        (params.threshold.getD defaultThreshold)
        (params.rmsThreshold.getD defaultRmsThreshold) = [] := by
      simp only [extractCandidates]
      rw [h0]
      simp
    simp only [runPyin, hL]
    simp
  · intro sqrtF cos2piF sin2piF sampleRate
    have h1 : (Int.fdiv ((([] : List ℚ).length : ℤ) - (2048 : ℤ)) (512 : ℤ)) = -4 := by
      decide
    have h0 : (Int.fdiv ((([] : List ℚ).length : ℤ) - (2048 : ℤ)) (512 : ℤ)).toNat = 0 := by
      decide
    simp only [computeSpectrogram, h1, h0]
    rfl

/-! ## NoteModel (src/utils/audioUtils.ts) -/

/-- `calculateMedianPitch(frames)`: median of the frequencies of the voiced
frames (`hasPitch && frequency > 0`), mean of the two central values for an
even count, `0` when none. -/
def calculateMedianPitch (frames : List PitchFrame) : ℚ :=
  let freqs := stableSort (fun a b => decide (a ≤ b))
    ((frames.filter (fun f => f.hasPitch && decide (0 < f.frequency))).map
      (fun f => f.frequency))
  if freqs.length = 0 then 0
  else
    let mid := freqs.length / 2
    if freqs.length % 2 = 0 then (freqs.getD (mid - 1) 0 + freqs.getD mid 0) / 2
    else freqs.getD mid 0

/-- `splitNote(note, splitTime, pitchData)`: `null` unless
`splitTime ∈ (note.start + 0.01, note.end - 0.01)`; otherwise the two halves
with median pitches (falling back to the original pitch when the median is
zero).  The fresh ids the source draws from `crypto.randomUUID()` are taken
as parameters. -/
def splitNote (note : Note) (splitTime : ℚ) (pitchData : List PitchFrame)
    (idLeft idRight : String) : Option (Note × Note) :=
  if splitTime ≤ note.start + 1/100 ∨ note.«end» - 1/100 ≤ splitTime then none
  else
    let leftFrames := pitchData.filter (fun f =>
      decide (note.start ≤ f.timestamp) && decide (f.timestamp ≤ splitTime))
    let leftPitch0 := calculateMedianPitch leftFrames
    let leftPitch := if leftPitch0 = 0 then note.pitch else leftPitch0
    let rightFrames := pitchData.filter (fun f =>
      decide (splitTime ≤ f.timestamp) && decide (f.timestamp ≤ note.«end»))
    let rightPitch0 := calculateMedianPitch rightFrames
    let rightPitch := if rightPitch0 = 0 then note.pitch else rightPitch0
    some (⟨idLeft, note.start, splitTime, leftPitch⟩,
          ⟨idRight, splitTime, note.«end», rightPitch⟩)

/-- The neighbor-pushing branch of `resizeNoteWithPush`:
returns `(changed, nStart, nEnd)` from the source's push policy. -/
def neighborUpdate (targetNote : Note) (newStart newEnd : ℚ) (neighbor : Note) :
    Bool × ℚ × ℚ :=
  let nStart := neighbor.start
  let nEnd := neighbor.«end»
  if decide (nStart + 1/1000 < newEnd) && decide (newStart < nEnd - 1/1000) then
    if decide (targetNote.start ≤ nStart) && decide (targetNote.«end» < nEnd) then
      (true, newEnd, nEnd)
    else if decide (nEnd ≤ targetNote.«end») && decide (nStart < targetNote.start) then
      (true, nStart, newStart)
    else if decide (nStart < newStart) then (true, nStart, newStart)
    else (true, newEnd, nEnd)
  else (false, nStart, nEnd)

/-- The `updates` pairs of `resizeNoteWithPush`'s neighbor loop: each other
note with the outcome of its push. -/
def resizeUpdates (targetNote : Note) (newStart newEnd : ℚ)
    (otherNotes : List Note) : List (Note × (Bool × ℚ × ℚ)) :=
  otherNotes.map (fun nb => (nb, neighborUpdate targetNote newStart newEnd nb))

/-- `modifiedNotes` of `resizeNoteWithPush`: changed neighbors whose new
duration is not below 10 ms, with their new bounds. -/
def resizeModified (targetNote : Note) (newStart newEnd : ℚ)
    (otherNotes : List Note) : List Note :=
  (resizeUpdates targetNote newStart newEnd otherNotes).filterMap
    (fun (u : Note × (Bool × ℚ × ℚ)) =>
      if u.2.1 && !(decide (u.2.2.2 - u.2.2.1 < 1/100)) then
        some { u.1 with start := u.2.2.1, «end» := u.2.2.2 }
      else none)

/-- `notesToDelete` of `resizeNoteWithPush`: ids of changed neighbors whose
new duration falls below 10 ms. -/
def resizeDeleted (targetNote : Note) (newStart newEnd : ℚ)
    (otherNotes : List Note) : List String :=
  (resizeUpdates targetNote newStart newEnd otherNotes).filterMap
    (fun (u : Note × (Bool × ℚ × ℚ)) =>
      if u.2.1 && decide (u.2.2.2 - u.2.2.1 < 1/100) then some u.1.id else none)

/-- `finalOtherNotes` of `resizeNoteWithPush`: drop the deleted neighbors
and recompute the pitch of the modified ones over their new range (keeping
the old pitch when the median is zero). -/
def resizeFinalOthers (targetNote : Note) (newStart newEnd : ℚ)
    (otherNotes : List Note) (pitchData : List PitchFrame) : List Note :=
  otherNotes.filterMap (fun n =>
    if (resizeDeleted targetNote newStart newEnd otherNotes).contains n.id then none
    else
      match (resizeModified targetNote newStart newEnd otherNotes).find?
          (fun mn => mn.id == n.id) with
      | some modN =>
        let frames := pitchData.filter (fun f =>
          decide (modN.start ≤ f.timestamp) && decide (f.timestamp ≤ modN.«end»))
        let pitch := calculateMedianPitch frames
        some { modN with pitch := if 0 < pitch then pitch else modN.pitch }
      | none => some n)

/-- `resizeNoteWithPush(allNotes, targetNoteId, newStart, newEnd, pitchData)`
from the source: push overlapped neighbors, delete neighbors whose new
duration falls below 10 ms, recompute pitches over the new ranges (keeping
the old pitch when the median is zero), move the target, sort by start.
The source's sequential locals (`updates` via `forEach`, `modifiedNotes`,
`notesToDelete`, `finalOtherNotes`) are the named helpers above. -/
def resizeNoteWithPush (allNotes : List Note) (targetNoteId : String)
    (newStart newEnd : ℚ) (pitchData : List PitchFrame) : List Note :=
  match allNotes.find? (fun n => n.id == targetNoteId) with
  | none => allNotes
  | some targetNote =>
    let otherNotes : List Note := allNotes.filter (fun n => !(n.id == targetNoteId))
    let targetFrames := pitchData.filter (fun f =>
      decide (newStart ≤ f.timestamp) && decide (f.timestamp ≤ newEnd))
    let targetPitch := calculateMedianPitch targetFrames
    let updatedTargetNote : Note :=
      { targetNote with
          start := newStart
          «end» := newEnd
          pitch := if 0 < targetPitch then targetPitch else targetNote.pitch }
    stableSort (fun a b => decide (a.start ≤ b.start))
      (resizeFinalOthers targetNote newStart newEnd otherNotes pitchData ++
        [updatedTargetNote])

/-- `handleCreateNote` of the App component (staged in
src/hooks/useUndoRedo.ts): drop every note whose midpoint `(start+end)/2`
lies in the selection `[s, e]`, compute the median pitch of the frames in
`[s, e]`, and when it is positive append a fresh note `{id, s, e, p}` to
the filtered list (unsorted).  When the pitch is not positive only the
removals are committed; if the filter removed nothing, the commit is
skipped and the list kept is that same filtered list. -/
def createOrReplaceNote (s e : ℚ) (freshId : String) (notes : List Note)
    (pitchData : List PitchFrame) : List Note :=
  let kept := notes.filter (fun n =>
    !(decide (s ≤ (n.start + n.«end») / 2) && decide ((n.start + n.«end») / 2 ≤ e)))
  let frames := pitchData.filter (fun f =>
    decide (s ≤ f.timestamp) && decide (f.timestamp ≤ e))
  let p := calculateMedianPitch frames
  if 0 < p then kept ++ [⟨freshId, s, e, p⟩] else kept

/-- `handleDeleteNotes` of the App component (staged in
src/hooks/useUndoRedo.ts): drop every note whose midpoint `(start+end)/2`
lies in the selection `[s, e]` (when nothing is dropped the commit is
skipped, which keeps the same list). -/
def deleteNotesInSelection (s e : ℚ) (notes : List Note) : List Note :=
  notes.filter (fun n =>
    !(decide (s ≤ (n.start + n.«end») / 2) && decide ((n.start + n.«end») / 2 ≤ e)))

/-- NoteLists reachable from the empty list by the NoteModel operations of
claim C2.  Fresh ids are arbitrary strings; the split constructor replaces
the split note by its two halves and re-sorts by start, as the caller does. -/
inductive ReachableNoteList : List Note → Prop
  | empty : ReachableNoteList []
  | createOrReplace (s e : ℚ) (freshId : String) (pd : List PitchFrame)
      {l : List Note} : ReachableNoteList l →
      ReachableNoteList (createOrReplaceNote s e freshId l pd)
  | split {l : List Note} (n : Note) (t : ℚ) (pd : List PitchFrame)
      (idL idR : String) (ln rn : Note) : ReachableNoteList l → n ∈ l →
      splitNote n t pd idL idR = some (ln, rn) →
      ReachableNoteList (stableSort (fun a b => decide (a.start ≤ b.start))
        ((l.filter (fun m => !(m.id == n.id))) ++ [ln, rn]))
  | resize {l : List Note} (targetId : String) (ns ne : ℚ)
      (pd : List PitchFrame) : ReachableNoteList l →
      ReachableNoteList (resizeNoteWithPush l targetId ns ne pd)
  | delete (s e : ℚ) {l : List Note} : ReachableNoteList l →
      ReachableNoteList (deleteNotesInSelection s e l)

theorem neighborUpdate_bounds (t : Note) (ns ne : ℚ) (nb : Note)
    (h : (neighborUpdate t ns ne nb).1 = true) :
    ((neighborUpdate t ns ne nb).2.1 = ne ∧
      (neighborUpdate t ns ne nb).2.2 = nb.«end») ∨
    ((neighborUpdate t ns ne nb).2.1 = nb.start ∧
      (neighborUpdate t ns ne nb).2.2 = ns) := by
  simp only [neighborUpdate] at h ⊢
  split_ifs at h ⊢ <;> simp_all

theorem mem_resizeFinalOthers (t : Note) (ns ne : ℚ) (others : List Note)
    (pd : List PitchFrame) :
    ∀ n ∈ resizeFinalOthers t ns ne others pd,
      ∃ m ∈ others, m.id = n.id ∧
        ((n.start = m.start ∧ n.«end» = m.«end») ∨
          (1/100 ≤ n.«end» - n.start ∧ (n.«end» ≤ ns ∨ ne ≤ n.start))) := by
  intro n hn
  unfold resizeFinalOthers at hn
  rw [List.mem_filterMap] at hn
  obtain ⟨n0, hn0, hsome⟩ := hn
  by_cases hdel : (resizeDeleted t ns ne others).contains n0.id
  · rw [if_pos hdel] at hsome
    cases hsome
  · rw [if_neg hdel] at hsome
    cases hfind : (resizeModified t ns ne others).find? (fun mn => mn.id == n0.id) with
    | none =>
      rw [hfind] at hsome
      have h0 := Option.some.inj hsome
      exact ⟨n0, hn0, by rw [h0], Or.inl ⟨by rw [h0], by rw [h0]⟩⟩
    | some modN =>
      rw [hfind] at hsome
      have hn_eq := Option.some.inj hsome
      have hmem := List.mem_of_find?_eq_some hfind
      unfold resizeModified resizeUpdates at hmem
      rw [List.mem_filterMap] at hmem
      obtain ⟨u, hu, husome⟩ := hmem
      rw [List.mem_map] at hu
      obtain ⟨nb, hnb, rfl⟩ := hu
      by_cases hcond : ((nb, neighborUpdate t ns ne nb).2.1 &&
          !(decide ((nb, neighborUpdate t ns ne nb).2.2.2 -
            (nb, neighborUpdate t ns ne nb).2.2.1 < 1/100))) = true
      · rw [if_pos hcond] at husome
        have hmod := Option.some.inj husome
        subst hmod
        subst hn_eq
        simp only [Bool.and_eq_true, Bool.not_eq_true', decide_eq_false_iff_not] at hcond
        obtain ⟨hch, hdur⟩ := hcond
        have hch2 : (neighborUpdate t ns ne nb).1 = true := hch
        refine ⟨nb, hnb, rfl, Or.inr ⟨?_, ?_⟩⟩
        · exact le_of_not_lt hdur
        · rcases neighborUpdate_bounds t ns ne nb hch2 with ⟨hb1, _⟩ | ⟨_, hb2⟩
          · right
            show ne ≤ (neighborUpdate t ns ne nb).2.1
            rw [hb1]
          · left
            show (neighborUpdate t ns ne nb).2.2 ≤ ns
            rw [hb2]
      · rw [if_neg hcond] at husome
        cases husome

/-- Counterexample for C2 as stated: a NoteList reachable from the empty
list via NoteModel operations that contains a note of duration
`1/200 s < 10 ms`.  Create a note on `[0, 1]` (median pitch 440), then
resize it with push to `[0, 1/200]`: `resizeNoteWithPush` places the target
at exactly `[newStart, newEnd]` with no minimum-duration guard. -/
theorem note_invariant_counterexample :
    ReachableNoteList [⟨"a", 0, 1/200, 440⟩] ∧
    (⟨"a", 0, 1/200, 440⟩ : Note).«end» - (⟨"a", 0, 1/200, 440⟩ : Note).start
      < 1/100 := by
  constructor
  · have h1 : createOrReplaceNote 0 1 "a" [] [⟨1/2, 440, 9/10, true, []⟩] =
        [⟨"a", 0, 1, 440⟩] := by
      norm_num [createOrReplaceNote, calculateMedianPitch, stableSort, stableInsert]
    have h2 : resizeNoteWithPush [⟨"a", 0, 1, 440⟩] "a" 0 (1/200)
        [⟨1/2, 440, 9/10, true, []⟩] = [⟨"a", 0, 1/200, 440⟩] := by
      norm_num [resizeNoteWithPush, resizeFinalOthers, calculateMedianPitch,
        stableSort, stableInsert, List.find?, neighborUpdate]
    have hr := ReachableNoteList.resize "a" 0 (1/200) [⟨1/2, 440, 9/10, true, []⟩]
      (h1 ▸ ReachableNoteList.createOrReplace 0 1 "a" [⟨1/2, 440, 9/10, true, []⟩]
        ReachableNoteList.empty)
    rwa [h2] at hr
  · norm_num

/-- **C2 (amended).** The reachability invariant of the claim fails on the
code (see `note_invariant_counterexample`: the resize target takes
`[newStart, newEnd]` verbatim, with no 10 ms guard, and overlaps within the
1 ms push tolerance survive).  What the NoteModel operations of src/ do
guarantee: a successful `splitNote` cuts strictly inside
`(start + 0.01, end - 0.01)`, so both halves have duration > 10 ms and
partition the original span; and in `resizeNoteWithPush` the target takes
exactly `[newStart, newEnd]` while every other note of the result either
keeps its old bounds unchanged or is a pushed neighbor that was kept only
because its new duration is ≥ 10 ms — and such a pushed neighbor never
overlaps the open interval `(newStart, newEnd)` (pushed neighbors that
would fall under 10 ms are deleted instead). -/
theorem note_model_amended :
    (∀ (n : Note) (t : ℚ) (pd : List PitchFrame) (idL idR : String) (ln rn : Note),
      splitNote n t pd idL idR = some (ln, rn) →
      ln.start = n.start ∧ ln.«end» = t ∧ rn.start = t ∧ rn.«end» = n.«end» ∧
      1/100 < ln.«end» - ln.start ∧ 1/100 < rn.«end» - rn.start) ∧
    (∀ (notes : List Note) (targetNoteId : String) (ns ne : ℚ)
        (pd : List PitchFrame) (tgt : Note),
      notes.find? (fun n => n.id == targetNoteId) = some tgt →
      ∀ n ∈ resizeNoteWithPush notes targetNoteId ns ne pd,
        (n.id = targetNoteId → n.start = ns ∧ n.«end» = ne) ∧
        (n.id ≠ targetNoteId → ∃ m ∈ notes, m.id = n.id ∧
          ((n.start = m.start ∧ n.«end» = m.«end») ∨
            (1/100 ≤ n.«end» - n.start ∧ (n.«end» ≤ ns ∨ ne ≤ n.start))))) := by
  constructor
  · intro n t pd idL idR ln rn h
    unfold splitNote at h
    split_ifs at h with hguard
    push_neg at hguard
    obtain ⟨hg1, hg2⟩ := hguard
    have hpair := Option.some.inj h
    have hln : ln = ⟨idL, n.start, t, _⟩ := (Prod.mk.injEq _ _ _ _ ▸ hpair).1.symm
    have hrn : rn = ⟨idR, t, n.«end», _⟩ := (Prod.mk.injEq _ _ _ _ ▸ hpair).2.symm
    rw [hln, hrn]
    refine ⟨rfl, rfl, rfl, rfl, by linarith, by linarith⟩
  · intro notes targetNoteId ns ne pd tgt hfind n hn
    have htgtid : tgt.id = targetNoteId := by
      have hp := List.find?_some hfind
      simpa using hp
    unfold resizeNoteWithPush at hn
    rw [hfind] at hn
    rw [mem_stableSort, List.mem_append] at hn
    rcases hn with hn | hn
    · obtain ⟨m, hm, hmid, hcase⟩ := mem_resizeFinalOthers tgt ns ne
        (notes.filter (fun n2 => !(n2.id == targetNoteId))) pd n hn
      have hm2 : m ∈ notes := (List.mem_filter.mp hm).1
      have hmne : ¬ (m.id = targetNoteId) := by
        have := (List.mem_filter.mp hm).2
        simpa using this
      constructor
      · intro hidn
        exact absurd (hmid.trans hidn) hmne
      · intro _
        exact ⟨m, hm2, hmid, hcase⟩
    · rw [List.mem_singleton] at hn
      subst hn
      constructor
      · intro _
        exact ⟨rfl, rfl⟩
      · intro hne2
        exact absurd htgtid hne2

/-- Witness for the amended C2: a concrete successful split of
`[0, 1] @ 440` at `t = 1/2`, and the resize of the counterexample list. -/
theorem note_model_amended_witness :
    (splitNote ⟨"x", 0, 1, 440⟩ (1/2) [] "l" "r" =
      some (⟨"l", 0, 1/2, 440⟩, ⟨"r", 1/2, 1, 440⟩) ∧
      ((⟨"l", 0, 1/2, 440⟩ : Note).start = (⟨"x", 0, 1, 440⟩ : Note).start ∧
        (⟨"l", 0, 1/2, 440⟩ : Note).«end» = 1/2 ∧
        (⟨"r", 1/2, 1, 440⟩ : Note).start = 1/2 ∧
        (⟨"r", 1/2, 1, 440⟩ : Note).«end» = (⟨"x", 0, 1, 440⟩ : Note).«end» ∧
        1/100 < (⟨"l", 0, 1/2, 440⟩ : Note).«end» - (⟨"l", 0, 1/2, 440⟩ : Note).start ∧
        1/100 < (⟨"r", 1/2, 1, 440⟩ : Note).«end» - (⟨"r", 1/2, 1, 440⟩ : Note).start)) ∧
    (([⟨"a", 0, 1, 440⟩] : List Note).find? (fun n => n.id == "a") =
        some ⟨"a", 0, 1, 440⟩ ∧
      ∀ n ∈ resizeNoteWithPush [⟨"a", 0, 1, 440⟩] "a" 0 (1/200) [],
        (n.id = "a" → n.start = 0 ∧ n.«end» = 1/200) ∧
        (n.id ≠ "a" → ∃ m ∈ ([⟨"a", 0, 1, 440⟩] : List Note), m.id = n.id ∧
          ((n.start = m.start ∧ n.«end» = m.«end») ∨
            (1/100 ≤ n.«end» - n.start ∧ (n.«end» ≤ 0 ∨ (1/200 : ℚ) ≤ n.start))))) := by
  have hsplit : splitNote ⟨"x", 0, 1, 440⟩ (1/2) [] "l" "r" =
      some (⟨"l", 0, 1/2, 440⟩, ⟨"r", 1/2, 1, 440⟩) := by
    norm_num [splitNote, calculateMedianPitch, stableSort]
  have hfind : ([⟨"a", 0, 1, 440⟩] : List Note).find? (fun n => n.id == "a") =
      some ⟨"a", 0, 1, 440⟩ := by
    norm_num [List.find?]
  refine ⟨⟨hsplit, ?_⟩, hfind, ?_⟩
  · exact note_model_amended.1 ⟨"x", 0, 1, 440⟩ (1/2) [] "l" "r" _ _ hsplit
  · exact note_model_amended.2 [⟨"a", 0, 1, 440⟩] "a" 0 (1/200) [] ⟨"a", 0, 1, 440⟩ hfind

/-! ## Interactive snapping (src/utils/interactionUtils.ts `getSnappedTime`) -/

/-- `DIMENSIONS.snapThresholdPx = 10` (src/constants.ts). -/
def snapThresholdPx : ℚ := 10

/-- Body of the `notes.forEach` of `getSnappedTime`: try the note's start,
then its end, updating `(bestTime, minDiff)` on strict improvement and
skipping the ignored note. -/
def snapFold (time : ℚ) (ignoreNoteId : Option String) (st : ℚ × ℚ) (n : Note) :
    ℚ × ℚ :=
  if ignoreNoteId = some n.id then st
  else
    let st1 := if |time - n.start| < st.2 then (n.start, |time - n.start|) else st
    if |time - n.«end»| < st1.2 then (n.«end», |time - n.«end»|) else st1

/-- `getSnappedTime(time, notes, zoom, frameDuration, duration,
ignoreNoteId, shiftKey)` from the source: note-boundary pass, grid fallback
(applied exactly when no note updated `minDiff`), then the `0` and
`duration` checks against the note-pass `minDiff`. -/
def getSnappedTime (time : ℚ) (notes : List Note)
    (zoom frameDuration duration : ℚ) (ignoreNoteId : Option String)
    (shiftKey : Bool) : ℚ :=
  if shiftKey then time
  else
    let thresholdSeconds := snapThresholdPx / zoom
    let st := notes.foldl (snapFold time ignoreNoteId) (time, thresholdSeconds)
    let bestTime2 := if st.2 = thresholdSeconds ∧ 0 < frameDuration then
        ((round (time / frameDuration) : ℤ) : ℚ) * frameDuration
      else st.1
    let bestTime3 := if |time - 0| < st.2 then 0 else bestTime2
    if |time - duration| < st.2 then duration else bestTime3

/-- The snap candidates of the note pass, in the order the loop considers
them: for each non-ignored note its start, then its end. -/
def snapCands (ignoreNoteId : Option String) (notes : List Note) : List ℚ :=
  notes.foldr (fun n acc =>
    if ignoreNoteId = some n.id then acc else n.start :: n.«end» :: acc) []

/-- One candidate step of the note pass. -/
def candStep (time : ℚ) (st : ℚ × ℚ) (c : ℚ) : ℚ × ℚ :=
  if |time - c| < st.2 then (c, |time - c|) else st

/-- Specification-side snapping, by priorities: among the snap candidates
let `md` be the smallest distance to `time` capped at `SNAP_PX/zoom`; if
`md` beats the cap, the provisional result is the first candidate at
distance `md`; otherwise, when `frameDuration > 0`, it is the grid position
`round(time/frameDuration)·frameDuration` regardless of its distance;
finally `0` replaces the provisional result when `|time - 0| < md`, and
then `duration` replaces it when `|time - duration| < md`. -/
def snapSpec (time : ℚ) (notes : List Note)
    (zoom frameDuration duration : ℚ) (ignoreNoteId : Option String)
    (shiftKey : Bool) : ℚ :=
  if shiftKey then time
  else
    let thr := snapThresholdPx / zoom
    let cands := snapCands ignoreNoteId notes
    let md := (cands.map (fun c => |time - c|)).foldl min thr
    let btNotes := if md < thr then
        (cands.find? (fun c => decide (|time - c| = md))).getD time
      else time
    let bt2 := if md = thr ∧ 0 < frameDuration then
        ((round (time / frameDuration) : ℤ) : ℚ) * frameDuration
      else btNotes
    let bt3 := if |time - 0| < md then 0 else bt2
    if |time - duration| < md then duration else bt3

/-- The note pass is a fold of `candStep` over the candidate list. -/
lemma foldl_snapFold_eq (time : ℚ) (ig : Option String) :
    ∀ (notes : List Note) (st : ℚ × ℚ),
      notes.foldl (snapFold time ig) st =
        (snapCands ig notes).foldl (candStep time) st := by
  intro notes
  induction notes with
  | nil => intro st; rfl
  | cons n ns ih =>
    intro st
    by_cases h : ig = some n.id
    · have h1 : snapFold time ig st n = st := by
        simp only [snapFold, if_pos h]
      have h2 : snapCands ig (n :: ns) = snapCands ig ns := by
        simp only [snapCands, List.foldr_cons, if_pos h]
      simp only [List.foldl_cons, h1, h2]
      exact ih st
    · have h1 : snapFold time ig st n =
          candStep time (candStep time st n.start) n.«end» := by
        simp only [snapFold, if_neg h, candStep]
      have h2 : snapCands ig (n :: ns) =
          n.start :: n.«end» :: snapCands ig ns := by
        simp only [snapCands, List.foldr_cons, if_neg h]
      simp only [List.foldl_cons, h1, h2]
      exact ih _

/-- Characterization of the candidate fold: its second component is the
fold of `min` over the distances, and its first component is either the
untouched initial value (when no candidate improved) or the first
candidate realizing the final minimum distance. -/
lemma candFold_spec (time : ℚ) :
    ∀ (cs : List ℚ) (bt0 md0 : ℚ),
      (cs.foldl (candStep time) (bt0, md0)).2 =
        (cs.map (fun c => |time - c|)).foldl min md0 ∧
      (((cs.foldl (candStep time) (bt0, md0)).2 = md0 ∧
          (cs.foldl (candStep time) (bt0, md0)).1 = bt0) ∨
        ((cs.foldl (candStep time) (bt0, md0)).2 < md0 ∧
          ∃ c0, cs.find? (fun c =>
              decide (|time - c| = (cs.foldl (candStep time) (bt0, md0)).2)) =
            some c0 ∧
            (cs.foldl (candStep time) (bt0, md0)).1 = c0)) := by
  intro cs
  induction cs with
  | nil => intro bt0 md0; exact ⟨rfl, Or.inl ⟨rfl, rfl⟩⟩
  | cons c cs ih =>
    intro bt0 md0
    by_cases h : |time - c| < md0
    · have hstep : candStep time (bt0, md0) c = (c, |time - c|) := by
        simp only [candStep, if_pos h]
      obtain ⟨ih1, ih2⟩ := ih c (|time - c|)
      have hmin : min md0 |time - c| = |time - c| := min_eq_right h.le
      constructor
      · simp only [List.foldl_cons, hstep, List.map_cons, hmin, ih1]
      · simp only [List.foldl_cons, hstep]
        rcases ih2 with ⟨ha, hb⟩ | ⟨ha, c0, hf, hb⟩
        · refine Or.inr ⟨by rw [ha]; exact h, c, ?_, hb⟩
          rw [List.find?_cons_of_pos]
          simp only [decide_eq_true_eq, ha]
        · refine Or.inr ⟨lt_trans ha h, c0, ?_, hb⟩
          rw [List.find?_cons_of_neg, hf]
          simp only [decide_eq_true_eq]
          exact fun hc => absurd hc.symm (ne_of_lt ha)
    · have hstep : candStep time (bt0, md0) c = (bt0, md0) := by
        simp only [candStep, if_neg h]
      obtain ⟨ih1, ih2⟩ := ih bt0 md0
      have hmin : min md0 |time - c| = md0 := min_eq_left (not_lt.mp h)
      constructor
      · simp only [List.foldl_cons, hstep, List.map_cons, hmin, ih1]
      · simp only [List.foldl_cons, hstep]
        rcases ih2 with ⟨ha, hb⟩ | ⟨ha, c0, hf, hb⟩
        · exact Or.inl ⟨ha, hb⟩
        · refine Or.inr ⟨ha, c0, ?_, hb⟩
          rw [List.find?_cons_of_neg, hf]
          simp only [decide_eq_true_eq]
          intro hc
          rw [hc] at h
          exact h ha

/-- C7, counterexample. With `time = 3/10`, one note `[1/2, 3/5]`,
`zoom = 1`, `frameDuration = 1/4`, `duration = 50`, no ignored note and
shift not held, `getSnappedTime` returns the note start `1/2`, although the
grid candidate `round(time/frameDuration)·frameDuration = 1/4` is strictly
closer to `time` and both candidates lie within `SNAP_PX/zoom = 10`
seconds: the function does not return the closest candidate within the
threshold, because a note boundary inside the threshold suppresses the
grid candidate entirely. -/
theorem getSnappedTime_closest_counterexample :
    getSnappedTime (3/10) [⟨"n", 1/2, 3/5, 440⟩] 1 (1/4) 50 none false
      = 1/2 ∧
    ((round ((3/10 : ℚ) / (1/4)) : ℤ) : ℚ) * (1/4) = 1/4 ∧
    |(3/10 : ℚ) - 1/4| < |(3/10 : ℚ) - 1/2| ∧
    |(3/10 : ℚ) - 1/2| < snapThresholdPx / 1 := by
  refine ⟨?_, ?_, by norm_num [abs], by norm_num [abs, snapThresholdPx]⟩
  · have hig : ((none : Option String) = some "n") = False := by simp
    norm_num [getSnappedTime, snapFold, snapThresholdPx, abs, hig]
  · norm_num [round_eq]

/-- C7 (amended). If shift is held, `getSnappedTime` returns the time
unchanged. Otherwise it follows the priority scheme of `snapSpec`: among
the starts and ends of the non-ignored notes, the first boundary at
minimal distance from `time` wins whenever that distance is strictly below
`SNAP_PX / zoom`; when no boundary is strictly within the threshold and
`frameDuration > 0`, the grid position `round(time/frameDuration) ·
frameDuration` is taken regardless of its own distance; finally, `0`
overrides the provisional result when `|time − 0|` is strictly below the
note-pass minimum, and then `duration` overrides when `|time − duration|`
is strictly below it. -/
theorem getSnappedTime_characterization (time : ℚ) (notes : List Note)
    (zoom frameDuration duration : ℚ) (ignoreNoteId : Option String)
    (shiftKey : Bool) :
    getSnappedTime time notes zoom frameDuration duration ignoreNoteId
        shiftKey =
      snapSpec time notes zoom frameDuration duration ignoreNoteId
        shiftKey := by
  cases shiftKey
  · simp only [getSnappedTime, snapSpec, Bool.false_eq_true, if_false]
    rw [foldl_snapFold_eq]
    obtain ⟨h1, h2⟩ := candFold_spec time (snapCands ignoreNoteId notes)
      time (snapThresholdPx / zoom)
    rw [← h1]
    rcases h2 with ⟨ha, hb⟩ | ⟨ha, c0, hf, hb⟩
    · rw [hb, ha]
      simp only [lt_irrefl, if_false]
    · rw [hf, hb]
      simp only [Option.getD_some, if_pos ha]
  · simp [getSnappedTime, snapSpec]

/-! ## Undo/redo history store (src/hooks/useUndoRedo.ts) -/

/-- `history`/`index` pair held by the `useState` of `useUndoRedo`. -/
structure UndoState (α : Type) where
  history : List α
  index : ℤ

/-- JavaScript `arr.slice(0, e)`: a nonnegative end index truncates at
`e` (clamped to the length), a negative one counts from the end. -/
def jsSliceTo {α : Type} (l : List α) (e : ℤ) : List α :=
  if 0 ≤ e then l.take e.toNat else l.take ((l.length : ℤ) + e).toNat

namespace UseUndoRedo

/-- `commit` of `useUndoRedo`: drop the states after the current index,
append the new state, and point at it. -/
def commit {α : Type} (s : α) (st : UndoState α) : UndoState α :=
  { history := jsSliceTo st.history (st.index + 1) ++ [s]
    index := st.index + 1 }

/-- `undo` of `useUndoRedo`: `index ← max(0, index − 1)`. -/
def undo {α : Type} (st : UndoState α) : UndoState α :=
  { st with index := max 0 (st.index - 1) }

/-- `redo` of `useUndoRedo`: `index ← min(history.length − 1, index + 1)`. -/
def redo {α : Type} (st : UndoState α) : UndoState α :=
  { st with index := min ((st.history.length : ℤ) - 1) (st.index + 1) }

/-- `reset` of `useUndoRedo`: a fresh one-element history. -/
def reset {α : Type} (s : α) : UndoState α :=
  { history := [s], index := 0 }

/-- `canUndo` of `useUndoRedo`: `index > 0`. -/
def canUndo {α : Type} (st : UndoState α) : Prop := 0 < st.index

/-- `canRedo` of `useUndoRedo`: `index < history.length − 1`. -/
def canRedo {α : Type} (st : UndoState α) : Prop :=
  st.index < (st.history.length : ℤ) - 1

/-- `currentState = history[index] || initialState`: the fallback fires
exactly when `history[index]` is `undefined` (the stored snapshots are
objects, hence truthy), i.e. when `index` is out of range. -/
def current {α : Type} (fallback : α) (st : UndoState α) : α :=
  if st.index < 0 then fallback
  else st.history.getD st.index.toNat fallback

/-- States of the hook reachable from the initial `useState` value
`{history: [init], index: 0}` by `commit`/`undo`/`redo`/`reset`. -/
inductive Reachable {α : Type} (init : α) : UndoState α → Prop
  | start : Reachable init ⟨[init], 0⟩
  | commit (s : α) {st : UndoState α} :
      Reachable init st → Reachable init (commit s st)
  | undo {st : UndoState α} :
      Reachable init st → Reachable init (undo st)
  | redo {st : UndoState α} :
      Reachable init st → Reachable init (redo st)
  | reset (s : α) {st : UndoState α} :
      Reachable init st → Reachable init (reset s)

end UseUndoRedo

/-- On every reachable state of the history store, the index stays within
the bounds of the history. -/
lemma undoRedo_reachable_bounds {α : Type} (init : α) :
    ∀ st : UndoState α, UseUndoRedo.Reachable init st →
      0 ≤ st.index ∧ st.index < (st.history.length : ℤ) := by
  intro st h
  induction h with
  | start => simp
  | @commit s st h ih =>
    obtain ⟨h0, h1⟩ := ih
    have hpos : (0:ℤ) ≤ st.index + 1 := by omega
    constructor
    · simp only [UseUndoRedo.commit]
      omega
    · simp only [UseUndoRedo.commit, jsSliceTo, if_pos hpos,
        List.length_append, List.length_take, List.length_singleton]
      push_cast
      omega
  | undo h ih =>
    obtain ⟨h0, h1⟩ := ih
    simp only [UseUndoRedo.undo]
    omega
  | redo h ih =>
    obtain ⟨h0, h1⟩ := ih
    simp only [UseUndoRedo.redo]
    omega
  | reset s h ih => simp [UseUndoRedo.reset]

/-- C9. On the history store: every reachable state keeps the index within
`[0, history.length)`; `commit s` truncates the history after the current
index, appends `s` and points at it, so `s` becomes the current state;
`undo` and `redo` keep the index within `[0, length − 1]` (undo never
increases it, redo never decreases it); `reset s` leaves the single
snapshot `s` at index 0; `canUndo` holds exactly when `index > 0` and
`canRedo` exactly when `index < length − 1`. -/
theorem useUndoRedo_characterization {α : Type} (init : α) :
    (∀ st : UndoState α, UseUndoRedo.Reachable init st →
      0 ≤ st.index ∧ st.index < (st.history.length : ℤ)) ∧
    (∀ (st : UndoState α) (s : α), 0 ≤ st.index →
      (UseUndoRedo.commit s st).history
          = st.history.take (st.index + 1).toNat ++ [s] ∧
      (UseUndoRedo.commit s st).index = st.index + 1) ∧
    (∀ (st : UndoState α) (s fb : α), UseUndoRedo.Reachable init st →
      UseUndoRedo.current fb (UseUndoRedo.commit s st) = s) ∧
    (∀ st : UndoState α, UseUndoRedo.Reachable init st →
      0 ≤ (UseUndoRedo.undo st).index ∧
      (UseUndoRedo.undo st).index ≤ st.index ∧
      (UseUndoRedo.undo st).index <
        ((UseUndoRedo.undo st).history.length : ℤ) ∧
      0 ≤ (UseUndoRedo.redo st).index ∧
      st.index ≤ (UseUndoRedo.redo st).index ∧
      (UseUndoRedo.redo st).index ≤
        ((UseUndoRedo.redo st).history.length : ℤ) - 1) ∧
    (∀ s : α, UseUndoRedo.reset s = (⟨[s], 0⟩ : UndoState α)) ∧
    (∀ st : UndoState α, UseUndoRedo.canUndo st ↔ 0 < st.index) ∧
    (∀ st : UndoState α, UseUndoRedo.canRedo st ↔
      st.index < (st.history.length : ℤ) - 1) := by
  refine ⟨undoRedo_reachable_bounds init, ?_, ?_, ?_, fun s => rfl,
    fun st => Iff.rfl, fun st => Iff.rfl⟩
  · intro st s h
    refine ⟨?_, rfl⟩
    simp only [UseUndoRedo.commit, jsSliceTo, if_pos (by omega : (0:ℤ) ≤ st.index + 1)]
  · intro st s fb hst
    obtain ⟨h0, h1⟩ := undoRedo_reachable_bounds init st hst
    simp only [UseUndoRedo.current, UseUndoRedo.commit, jsSliceTo,
      if_pos (by omega : (0:ℤ) ≤ st.index + 1)]
    rw [if_neg (by omega : ¬ st.index + 1 < 0)]
    have hlen : (st.history.take (st.index + 1).toNat).length
        = (st.index + 1).toNat := by
      simp only [List.length_take]
      omega
    rw [List.getD_append_right, hlen]
    · simp
    · omega
  · intro st hst
    obtain ⟨h0, h1⟩ := undoRedo_reachable_bounds init st hst
    simp only [UseUndoRedo.undo, UseUndoRedo.redo]
    omega

/-- Witness for C9: a concrete reachable state `⟨[0, 5], 1⟩` of the store
over `ℕ`, with the commit, current-state, undo and redo facts obtained
from the characterization at that state. -/
theorem useUndoRedo_characterization_witness :
    UseUndoRedo.Reachable (0 : ℕ) (⟨[0, 5], 1⟩ : UndoState ℕ) ∧
    (0 : ℤ) ≤ (⟨[0, 5], (1 : ℤ)⟩ : UndoState ℕ).index ∧
    (UseUndoRedo.commit 9 (⟨[0, 5], 1⟩ : UndoState ℕ)).history = [0, 5, 9] ∧
    (UseUndoRedo.commit 9 (⟨[0, 5], 1⟩ : UndoState ℕ)).index = 2 ∧
    UseUndoRedo.current 7 (UseUndoRedo.commit 9 (⟨[0, 5], 1⟩ : UndoState ℕ)) = 9 ∧
    0 ≤ (UseUndoRedo.undo (⟨[0, 5], 1⟩ : UndoState ℕ)).index ∧
    (UseUndoRedo.redo (⟨[0, 5], 1⟩ : UndoState ℕ)).index ≤
      ((UseUndoRedo.redo (⟨[0, 5], 1⟩ : UndoState ℕ)).history.length : ℤ) - 1 := by
  have hr : UseUndoRedo.Reachable (0 : ℕ) (⟨[0, 5], 1⟩ : UndoState ℕ) := by
    have h1 : UseUndoRedo.Reachable (0 : ℕ) (UseUndoRedo.commit 5 ⟨[0], 0⟩) :=
      UseUndoRedo.Reachable.commit 5 UseUndoRedo.Reachable.start
    have h2 : UseUndoRedo.commit (5 : ℕ) ⟨[0], 0⟩ = (⟨[0, 5], 1⟩ : UndoState ℕ) := rfl
    rw [h2] at h1
    exact h1
  have hle : (0 : ℤ) ≤ (⟨[0, 5], (1 : ℤ)⟩ : UndoState ℕ).index := by decide
  refine ⟨hr, hle,
    ((useUndoRedo_characterization (0 : ℕ)).2.1 ⟨[0, 5], 1⟩ 9 hle).1.trans rfl,
    ((useUndoRedo_characterization (0 : ℕ)).2.1 ⟨[0, 5], 1⟩ 9 hle).2.trans (by decide),
    (useUndoRedo_characterization (0 : ℕ)).2.2.1 ⟨[0, 5], 1⟩ 9 7 hr,
    ((useUndoRedo_characterization (0 : ℕ)).2.2.2.1 ⟨[0, 5], 1⟩ hr).1,
    ?_⟩
  exact ((useUndoRedo_characterization (0 : ℕ)).2.2.2.1 ⟨[0, 5], 1⟩ hr).2.2.2.2.2
